import Mathlib

/-!
# animelo: Elo rating engine of `main.go`

A shallow embedding of the rating engine of `main.go` (`updateElo`,
`updateEloInDB`, `getTwoRandomAnimes`, `insertTitlesIntoDB`) and the proofs of
its specification.

* float64 arithmetic is IEEE 754 binary64 with round-to-nearest-even, modelled
  exactly over the rationals (`round64`).  The sign of a zero is not tracked:
  `updateElo` divides only by `400` and by `1 + p`, and a sum that is zero is
  `+0` under round-to-nearest, so no operation of `updateElo` can observe it.
  No expression of `updateElo` has the shape `x*y + z`, so no operation can be
  fused.
* `math.Pow` is a library routine whose results are not fixed by the language;
  it is a field of `Platform`, and every theorem states what it needs from it at
  the one argument `updateElo` passes.
* Go `int` is the 64-bit two's complement integer: results of `+` and `-` are
  reduced by `wrap64`.
* The SQLite table `animes` is the list of its rows in rowid order, every
  column holding a value of its declared type; `RANDOM()` is an arbitrary
  function giving each candidate row its sort key.  A database file without
  the table is `none` for `getTwoRandomAnimes`, whose query then fails; other
  failures of the database connection are not modelled.
-/

namespace Animelo

/-! ## binary64 arithmetic -/

/-- Round a rational to the nearest integer, ties to the even one. -/
def rne (x : ℚ) : ℤ :=
  let f := ⌊x⌋
  if x - f < 1 / 2 then f
  else if 1 / 2 < x - f then f + 1
  else if f % 2 = 0 then f else f + 1

/-- Exponent of the binade of a positive magnitude, not below the subnormal
exponent `-1022`. -/
def binade (a : ℚ) : ℤ := max (Int.log 2 a) (-1022)

/-- Spacing of the binary64 numbers in the binade of `a` (53-bit significand). -/
def ulp (a : ℚ) : ℚ := (2 : ℚ) ^ (binade a - 52)

/-- Nearest binary64 magnitude to `a`, before the overflow test. -/
def roundMag (a : ℚ) : ℚ := (rne (a / ulp a) : ℚ) * ulp a

/-- Values of a Go `float64`. -/
inductive F64 where
  | nan : F64
  | inf (neg : Bool) : F64
  | fin (q : ℚ) : F64
deriving DecidableEq

/-- IEEE 754 round-to-nearest-even of an exact result to binary64; a rounded
magnitude of `2^1024` or more overflows to an infinity. -/
def round64 (q : ℚ) : F64 :=
  if (2 : ℚ) ^ (1024 : ℕ) ≤ roundMag |q| then F64.inf (decide (q < 0))
  else F64.fin (if q < 0 then -roundMag |q| else roundMag |q|)

namespace F64

/-- Rational value of a finite float (0 for NaN and the infinities). -/
def toRat : F64 → ℚ
  | fin q => q
  | _ => 0

/-- The float is a finite number between `lo` and `hi`. -/
def between (lo hi : ℚ) : F64 → Prop
  | fin q => lo ≤ q ∧ q ≤ hi
  | _ => False

/-- The float is `+Inf` or a finite number that is not negative. -/
def nonneg : F64 → Prop
  | nan => False
  | inf s => s = false
  | fin q => 0 ≤ q

/-- Conversion `float64(n)` of a Go integer. -/
def ofInt (n : ℤ) : F64 := round64 (n : ℚ)

/-- Go `x + y` on float64. -/
def add : F64 → F64 → F64
  | nan, _ => nan
  | _, nan => nan
  | inf s, inf t => if s = t then inf s else nan
  | inf s, fin _ => inf s
  | fin _, inf t => inf t
  | fin a, fin b => round64 (a + b)

/-- Go `x - y` on float64. -/
def sub : F64 → F64 → F64
  | nan, _ => nan
  | _, nan => nan
  | inf s, inf t => if s = t then nan else inf s
  | inf s, fin _ => inf s
  | fin _, inf t => inf (!t)
  | fin a, fin b => round64 (a - b)

/-- Go `x * y` on float64. -/
def mul : F64 → F64 → F64
  | nan, _ => nan
  | _, nan => nan
  | inf s, inf t => inf (xor s t)
  | inf s, fin b => if b = 0 then nan else inf (xor s (decide (b < 0)))
  | fin a, inf t => if a = 0 then nan else inf (xor (decide (a < 0)) t)
  | fin a, fin b => round64 (a * b)

/-- Go `x / y` on float64 (a zero divisor is taken as `+0`). -/
def div : F64 → F64 → F64
  | nan, _ => nan
  | _, nan => nan
  | inf _, inf _ => nan
  | inf s, fin b => inf (xor s (decide (b < 0)))
  | fin _, inf _ => fin 0
  | fin a, fin b =>
    if b = 0 then (if a = 0 then nan else inf (decide (a < 0))) else round64 (a / b)

end F64

/-- Discard the fraction of a rational (truncation toward zero). -/
def truncToInt (q : ℚ) : ℤ := if 0 ≤ q then ⌊q⌋ else ⌈q⌉

/-- Reduce an integer to the range of the 64-bit Go `int`. -/
def wrap64 (z : ℤ) : ℤ := (z + 2 ^ 63) % 2 ^ 64 - 2 ^ 63

/-- What the language leaves to the implementation: the library routine
`math.Pow`, and the result of converting to `int` a float that `int` cannot
represent (NaN, an infinity, or a value out of range). -/
structure Platform where
  mathPow : F64 → F64 → F64
  convInvalid : F64 → ℤ

/-- Conversion `int(x)` of a float64: the fraction is discarded. -/
def Platform.toInt (P : Platform) (x : F64) : ℤ :=
  match x with
  | F64.fin q =>
    if -2 ^ 63 ≤ truncToInt q ∧ truncToInt q < 2 ^ 63 then truncToInt q else P.convInvalid x
  | _ => P.convInvalid x

/-! ## `main.go` -/

/-- Record of the imported catalog (`type Anime struct`). -/
structure Anime where
  SeriesTitle : String
  Status : String
  AnidbID : ℤ
deriving DecidableEq

/-- Row of table `animes` (`type anime struct`). -/
structure anime where
  ID : ℤ
  AnidbID : ℤ
  Title : String
  Status : String
  Elo : ℤ
  Fights : ℤ
deriving DecidableEq

/-- Table `animes`: its rows in rowid order and the AUTOINCREMENT counter. -/
structure Store where
  rows : List anime
  seq : ℤ

/-- Failure of an SQL statement. -/
inductive DBError where
  | uniqueConstraint : DBError
deriving DecidableEq

/-- Exponent passed to `math.Pow`: `float64(loser.Elo-winner.Elo)/400`. -/
def powArg (w l : ℤ) : F64 :=
  F64.div (F64.ofInt (wrap64 (l - w))) (F64.fin 400)

/-- Variable `expectedWinner` of `updateElo`. -/
def expectedWinner (P : Platform) (w l : ℤ) : F64 :=
  F64.div (F64.fin 1) (F64.add (F64.fin 1) (P.mathPow (F64.fin 10) (powArg w l)))

/-- Variable `expectedLoser` of `updateElo`. -/
def expectedLoser (P : Platform) (w l : ℤ) : F64 :=
  F64.sub (F64.fin 1) (expectedWinner P w l)

/-- Float `float64(k) * (1 - expectedWinner)` with `k := 50`. -/
def winnerDelta (P : Platform) (w l : ℤ) : F64 :=
  F64.mul (F64.ofInt 50) (F64.sub (F64.fin 1) (expectedWinner P w l))

/-- Float `float64(k) * (0 - expectedLoser)` with `k := 50`. -/
def loserDelta (P : Platform) (w l : ℤ) : F64 :=
  F64.mul (F64.ofInt 50) (F64.sub (F64.fin 0) (expectedLoser P w l))

/-- Variable `eloChangeWinner` of `updateElo`. -/
def eloChangeWinner (P : Platform) (w l : ℤ) : ℤ := P.toInt (winnerDelta P w l)

/-- Variable `eloChangeLoser` of `updateElo`. -/
def eloChangeLoser (P : Platform) (w l : ℤ) : ℤ := P.toInt (loserDelta P w l)

/-- Function `updateElo`. -/
def updateElo (P : Platform) (winner loser : anime) : anime × anime :=
  (anime.mk winner.ID winner.AnidbID winner.Title winner.Status
      (wrap64 (winner.Elo + eloChangeWinner P winner.Elo loser.Elo)) winner.Fights,
   anime.mk loser.ID loser.AnidbID loser.Title loser.Status
      (wrap64 (loser.Elo + eloChangeLoser P winner.Elo loser.Elo)) loser.Fights)

/-- Statement `UPDATE animes SET elo = ?, fights = fights + 1 WHERE anidb_id = ?`. -/
def execUpdate (elo anidbID : ℤ) (rows : List anime) : List anime :=
  rows.map fun r =>
    if r.AnidbID = anidbID then anime.mk r.ID r.AnidbID r.Title r.Status elo (r.Fights + 1)
    else r

/-- Function `updateEloInDB`: the winner's update, then the loser's. -/
def updateEloInDB (P : Platform) (winner loser : anime) (db : Store) : Store :=
  let res := updateElo P winner loser
  let rows1 := execUpdate res.1.Elo res.1.AnidbID db.rows
  Store.mk (execUpdate res.2.Elo res.2.AnidbID rows1) db.seq

/-- Order of `ORDER BY fights ASC, RANDOM()` on (fights, random key, row). -/
def orderKeyLE (x y : ℤ × ℤ × anime) : Prop :=
  x.1 < y.1 ∨ (x.1 = y.1 ∧ x.2.1 ≤ y.2.1)

instance : DecidableRel orderKeyLE := fun x y => by
  unfold orderKeyLE; exact inferInstance

instance : IsTotal (ℤ × ℤ × anime) orderKeyLE :=
  ⟨fun x y => by unfold orderKeyLE; omega⟩

instance : IsTrans (ℤ × ℤ × anime) orderKeyLE :=
  ⟨fun x y z => by unfold orderKeyLE; omega⟩

/-- Rows matched by `WHERE status = 'Completed'`. -/
def completedRows (db : Store) : List anime :=
  db.rows.filter fun a => decide (a.Status = "Completed")

/-- Candidate rows of the query with their sort keys: `fights` and the value
`RANDOM()` takes for the row (`random i` for the `i`-th matching row). -/
def keyedRows (random : ℕ → ℤ) (db : Store) : List (ℤ × ℤ × anime) :=
  (completedRows db).enum.map fun ia => (ia.2.Fights, random ia.1, ia.2)

/-- Result rows of
`SELECT * FROM animes WHERE status = 'Completed' ORDER BY fights ASC, RANDOM() LIMIT 2`. -/
def queryTwo (random : ℕ → ℤ) (db : Store) : List anime :=
  (((keyedRows random db).insertionSort orderKeyLE).take 2).map fun k => k.2.2

/-- Ways `getTwoRandomAnimes` ends: it returns a pair, or it exits with status 1
after printing "Failed to execute query: ..." or "Failed to get two animes". -/
inductive Selection where
  | pair (a b : anime) : Selection
  | failedQuery : Selection
  | failedTwo : Selection
deriving DecidableEq

/-- Function `getTwoRandomAnimes` on the database file `animes.db`: `none` is a
file without table `animes` (no import has run yet), for which `db.Query`
returns the error "no such table"; `some db` is a file holding the table. -/
def getTwoRandomAnimes (random : ℕ → ℤ) (file : Option Store) : Selection :=
  match file with
  | none => Selection.failedQuery
  | some db =>
    match queryTwo random db with
    | [a, b] => Selection.pair a b
    | _ => Selection.failedTwo

/-- Statement `INSERT INTO animes(anidb_id, title, status, elo) VALUES (?, ?, ?, 1500)`
under `"anidb_id" INTEGER NOT NULL UNIQUE` and `"fights" INTEGER DEFAULT 0`. -/
def execInsert (db : Store) (a : Anime) : Except DBError Store :=
  if db.rows.any (fun r => decide (r.AnidbID = a.AnidbID)) then
    Except.error DBError.uniqueConstraint
  else
    let rowid := max db.seq ((db.rows.map anime.ID).foldl max 0) + 1
    Except.ok (Store.mk (db.rows ++ [anime.mk rowid a.AnidbID a.SeriesTitle a.Status 1500 0]) rowid)

/-- Insert loop of `insertTitlesIntoDB`: the store it leaves and the error it
returns (`none` for `nil`).  Each statement commits on its own, so the rows
inserted before a failing record stay. -/
def insertTitlesIntoDB : List Anime → Store → Store × Option DBError
  | [], db => (db, none)
  | a :: rest, db =>
    match execInsert db a with
    | Except.error e => (db, some e)
    | Except.ok db1 => insertTitlesIntoDB rest db1

/-! ## Vocabulary of the statements -/

/-- A magnitude is a binary64 number: rounding leaves it alone. -/
def Rep (q : ℚ) : Prop := roundMag q = q

/-- Row written by one decision: the new rating and one more comparison for
the winner's and the loser's identity, any other row as it was. -/
def decided (winnerNew loserNew : anime) (r : anime) : anime :=
  if r.AnidbID = winnerNew.AnidbID then
    anime.mk r.ID r.AnidbID r.Title r.Status winnerNew.Elo (r.Fights + 1)
  else if r.AnidbID = loserNew.AnidbID then
    anime.mk r.ID r.AnidbID r.Title r.Status loserNew.Elo (r.Fights + 1)
  else r

/-! ## A reference platform for the worked examples -/

/-- The float64 nearest to the square root of 10. -/
def sqrt10 : ℚ := 7120816245988179 / 2251799813685248

/-- Results of `math.Pow` at the exponents of the worked examples, where the
routine takes an exact path: `Pow(x, 0) = 1`, `Pow(x, 0.5) = Sqrt(x)` and
`Pow(x, -0.5) = 1 / Sqrt(x)`, here for `x = 10`.  NaN stands for an argument
that is not tabulated. -/
def powTable (x y : F64) : F64 :=
  match x, y with
  | F64.fin b, F64.fin q =>
    if q = 0 then F64.fin 1
    else if b = 10 ∧ q = 1 / 2 then F64.fin sqrt10
    else if b = 10 ∧ q = -1 / 2 then F64.div (F64.fin 1) (F64.fin sqrt10)
    else F64.nan
  | _, _ => F64.nan

/-- Platform of the worked examples: `powTable`, and the amd64 result
`-2^63` for a conversion `int` cannot represent. -/
def refPlatform : Platform := Platform.mk powTable (fun _ => -2 ^ 63)

/-- Rows of the worked examples. -/
def rowA : anime := anime.mk 1 101 "A" "Completed" 1600 0

/-- Second row of the worked examples, rated 1400. -/
def rowB : anime := anime.mk 2 102 "B" "Completed" 1400 0

/-- Third row of the worked examples, rated 1500. -/
def rowC : anime := anime.mk 3 103 "C" "Completed" 1500 0

/-- Fourth row of the worked examples, rated 1500. -/
def rowD : anime := anime.mk 4 104 "D" "Completed" 1500 0

/-- A store of four completed rows. -/
def sampleStore : Store := Store.mk [rowA, rowB, rowC, rowD] 4

/-- A store of two completed rows rated 1500 with no comparison yet. -/
def sampleTwo : Store := Store.mk [rowC, rowD] 4

/-- A completed row compared three times. -/
def rowE : anime := anime.mk 5 105 "E" "Completed" 1540 3

/-- A row that is not completed and was never compared. -/
def rowF : anime := anime.mk 6 106 "F" "Watching" 1500 0

/-- A completed row compared once. -/
def rowG : anime := anime.mk 7 107 "G" "Completed" 1475 1

/-- A completed row compared five times. -/
def rowH : anime := anime.mk 8 108 "H" "Completed" 1510 5

/-- A completed row compared twice. -/
def rowI : anime := anime.mk 9 109 "I" "Completed" 1525 2

/-- A row on the plan-to-watch list, never compared. -/
def rowK : anime := anime.mk 10 110 "K" "Plan to Watch" 1500 0

/-- A store whose completed rows have the comparison counts 3, 1, 5 and 2, and
whose least compared row is not completed. -/
def mixedStore : Store := Store.mk [rowE, rowF, rowG, rowH, rowI] 9

/-- A store with one completed row only. -/
def loneStore : Store := Store.mk [rowF, rowG, rowK] 10

/-- A row rated at the least value of `int`. -/
def rowLow : anime := anime.mk 11 111 "L" "Completed" (-9223372036854775808) 0

/-- Another row rated at the least value of `int`. -/
def rowLow2 : anime := anime.mk 12 112 "M" "Completed" (-9223372036854775808) 0

/-! ## Rounding -/

theorem rne_ge_floor (x : ℚ) : ⌊x⌋ ≤ rne x := by
  unfold rne; simp only; split_ifs <;> omega

theorem rne_le_ceil (x : ℚ) : rne x ≤ ⌈x⌉ := by
  unfold rne; simp only
  have h1 : ⌊x⌋ ≤ ⌈x⌉ := Int.floor_le_ceil x
  have h2 : ∀ (_ : ¬ (x - ⌊x⌋ < 1/2)), ⌊x⌋ + 1 ≤ ⌈x⌉ := by
    intro h
    have : (⌊x⌋ : ℚ) < x := by linarith
    have h3 : ⌊x⌋ < ⌈x⌉ := by
      have := Int.le_ceil x
      exact_mod_cast lt_of_lt_of_le ‹(⌊x⌋ : ℚ) < x› this
    omega
  split_ifs with h a b
  · exact h1
  · exact h2 h
  · exact h1
  · exact h2 h

theorem rne_le_of_le (x : ℚ) (m : ℤ) (h : x ≤ m) : rne x ≤ m :=
  le_trans (rne_le_ceil x) (Int.ceil_le.mpr h)

theorem le_rne_of_le (x : ℚ) (m : ℤ) (h : (m : ℚ) ≤ x) : m ≤ rne x :=
  le_trans (Int.le_floor.mpr h) (rne_ge_floor x)

theorem rne_intCast (m : ℤ) : rne (m : ℚ) = m :=
  le_antisymm (rne_le_of_le _ m le_rfl) (le_rne_of_le _ m le_rfl)

theorem ulp_pos (a : ℚ) : 0 < ulp a := by
  unfold ulp; positivity

theorem binade_mono {a b : ℚ} (ha : 0 < a) (h : a ≤ b) : binade a ≤ binade b := by
  unfold binade
  exact max_le_max (Int.log_mono_right ha h) le_rfl

theorem binade_ge (a : ℚ) : -1022 ≤ binade a := le_max_right _ _

theorem log_le_binade (a : ℚ) : Int.log 2 a ≤ binade a := le_max_left _ _

theorem lt_two_pow_binade (a : ℚ) : a < (2 : ℚ) ^ (binade a + 1) := by
  have h1 : a < ((2 : ℕ) : ℚ) ^ (Int.log 2 a + 1) := Int.lt_zpow_succ_log_self (by norm_num) a
  have h2 : ((2 : ℕ) : ℚ) ^ (Int.log 2 a + 1) ≤ (2 : ℚ) ^ (binade a + 1) := by
    have := log_le_binade a
    simpa using zpow_le_zpow_right₀ (by norm_num : (1 : ℚ) ≤ 2) (by omega : Int.log 2 a + 1 ≤ binade a + 1)
  exact lt_of_lt_of_le h1 h2

theorem two_pow_binade_le {a : ℚ} (ha : 0 < a) (h : binade a ≠ -1022) :
    (2 : ℚ) ^ binade a ≤ a := by
  have hb : binade a = Int.log 2 a := by
    unfold binade at h ⊢
    rcases max_cases (Int.log 2 a) (-1022) with ⟨h1, _⟩ | ⟨h1, _⟩
    · exact h1
    · exact absurd h1 h
  rw [hb]
  simpa using Int.zpow_log_le_self (by norm_num : 1 < 2) ha

theorem binade_eq_of {r : ℚ} {e : ℤ} (hr : 0 < r) (he : -1022 ≤ e)
    (hlt : r < (2 : ℚ) ^ (e + 1)) (hge : e = -1022 ∨ (2 : ℚ) ^ e ≤ r) : binade r = e := by
  have h1 : Int.log 2 r < e + 1 := by
    have := (Int.lt_zpow_iff_log_lt (by norm_num : 1 < 2) hr (x := e + 1)).mp (by simpa using hlt)
    exact this
  unfold binade
  rcases hge with h | h
  · subst h
    exact max_eq_right (by omega)
  · have h2 : e ≤ Int.log 2 r :=
      (Int.zpow_le_iff_le_log (by norm_num : 1 < 2) hr).mp (by simpa using h)
    have : Int.log 2 r = e := by omega
    rw [this]; exact max_eq_left he

theorem roundMag_zero : roundMag 0 = 0 := by
  unfold roundMag
  have : rne (0 / ulp 0) = 0 := by
    rw [zero_div]; exact_mod_cast rne_intCast 0
  rw [this]; simp

theorem roundMag_nonneg {a : ℚ} (ha : 0 ≤ a) : 0 ≤ roundMag a := by
  unfold roundMag
  have h0 : (0 : ℤ) ≤ rne (a / ulp a) :=
    le_rne_of_le _ 0 (by simpa using div_nonneg ha (ulp_pos a).le)
  have : (0 : ℚ) ≤ (rne (a / ulp a) : ℚ) := by exact_mod_cast h0
  exact mul_nonneg this (ulp_pos a).le

/-- Every number `n * 2^(e-52)` with a 53-bit significand is a fixed point of rounding. -/
theorem roundMag_dyadic (n : ℕ) (e : ℤ) (hn : n < 2 ^ 53) (he : -1022 ≤ e)
    (hnorm : e = -1022 ∨ 2 ^ 52 ≤ n) :
    roundMag ((n : ℚ) * (2 : ℚ) ^ (e - 52)) = (n : ℚ) * (2 : ℚ) ^ (e - 52) := by
  rcases Nat.eq_zero_or_pos n with h0 | hpos
  · subst h0; simpa using roundMag_zero
  have hu : (0 : ℚ) < (2 : ℚ) ^ (e - 52) := by positivity
  have hr : (0 : ℚ) < (n : ℚ) * (2 : ℚ) ^ (e - 52) := by positivity
  have hsplit : (2 : ℚ) ^ (e + 1) = (2 : ℚ) ^ (53 : ℕ) * (2 : ℚ) ^ (e - 52) := by
    rw [← zpow_natCast, ← zpow_add₀ (by norm_num)]; congr 1; push_cast; ring
  have hsplit2 : (2 : ℚ) ^ e = (2 : ℚ) ^ (52 : ℕ) * (2 : ℚ) ^ (e - 52) := by
    rw [← zpow_natCast, ← zpow_add₀ (by norm_num)]; congr 1; push_cast; ring
  have hb : binade ((n : ℚ) * (2 : ℚ) ^ (e - 52)) = e := by
    apply binade_eq_of hr he
    · rw [hsplit]
      apply mul_lt_mul_of_pos_right _ hu
      exact_mod_cast hn
    · rcases hnorm with h | h
      · exact Or.inl h
      · right
        rw [hsplit2]
        apply mul_le_mul_of_nonneg_right _ hu.le
        exact_mod_cast h
  unfold roundMag ulp
  rw [hb, mul_div_assoc, div_self hu.ne', mul_one]
  have : rne (n : ℚ) = (n : ℤ) := by exact_mod_cast rne_intCast (n : ℤ)
  rw [this]; push_cast; ring

theorem ulp_eq_mul {a b : ℚ} (h : binade a ≤ binade b) :
    ∃ k : ℕ, ulp b = ulp a * (2 : ℚ) ^ k := by
  obtain ⟨k, hk⟩ := Int.le.dest h
  refine ⟨k, ?_⟩
  unfold ulp
  rw [← zpow_natCast, ← zpow_add₀ (by norm_num)]
  congr 1; omega

/-- Rounding never crosses a representable number from below. -/
theorem roundMag_le {a b : ℚ} (ha : 0 < a) (hab : a ≤ b) (hb : roundMag b = b) :
    roundMag a ≤ b := by
  obtain ⟨k, hk⟩ := ulp_eq_mul (binade_mono ha hab)
  have hua := ulp_pos a
  have hbm : b = ((rne (b / ulp b) * 2 ^ k : ℤ) : ℚ) * ulp a := by
    conv_lhs => rw [← hb]
    unfold roundMag
    rw [hk]; push_cast; ring
  have hle : a / ulp a ≤ ((rne (b / ulp b) * 2 ^ k : ℤ) : ℚ) := by
    rw [div_le_iff₀ hua, ← hbm]; exact hab
  have := rne_le_of_le _ _ hle
  have h2 : (rne (a / ulp a) : ℚ) ≤ ((rne (b / ulp b) * 2 ^ k : ℤ) : ℚ) := by exact_mod_cast this
  calc roundMag a = (rne (a / ulp a) : ℚ) * ulp a := rfl
    _ ≤ ((rne (b / ulp b) * 2 ^ k : ℤ) : ℚ) * ulp a := mul_le_mul_of_nonneg_right h2 hua.le
    _ = b := hbm.symm

/-- Rounding never crosses a representable number from above. -/
theorem le_roundMag {a q : ℚ} (ha : 0 < a) (haq : a ≤ q) (hrep : roundMag a = a) :
    a ≤ roundMag q := by
  have hq : 0 < q := lt_of_lt_of_le ha haq
  have huq := ulp_pos q
  rcases eq_or_lt_of_le (binade_mono ha haq) with heq | hlt
  · have hu : ulp a = ulp q := by unfold ulp; rw [heq]
    have ham : a = (rne (a / ulp a) : ℚ) * ulp q := by
      conv_lhs => rw [← hrep]
      unfold roundMag; rw [hu]
    have hle : (rne (a / ulp a) : ℚ) ≤ q / ulp q := by
      rw [le_div_iff₀ huq, ← ham]; exact haq
    have := le_rne_of_le _ _ hle
    have h2 : (rne (a / ulp a) : ℚ) ≤ (rne (q / ulp q) : ℚ) := by exact_mod_cast this
    calc a = (rne (a / ulp a) : ℚ) * ulp q := ham
      _ ≤ (rne (q / ulp q) : ℚ) * ulp q := mul_le_mul_of_nonneg_right h2 huq.le
  · have hne : binade q ≠ -1022 := by have := binade_ge a; omega
    have h1 := two_pow_binade_le hq hne
    have hsplit2 : (2 : ℚ) ^ binade q = (2 : ℚ) ^ (52 : ℕ) * ulp q := by
      unfold ulp
      rw [← zpow_natCast, ← zpow_add₀ (by norm_num)]; congr 1; push_cast; ring
    have hle : (((2 : ℤ) ^ (52 : ℕ) : ℤ) : ℚ) ≤ q / ulp q := by
      rw [le_div_iff₀ huq]; rw [hsplit2] at h1; norm_num at h1 ⊢; exact h1
    have := le_rne_of_le _ _ hle
    have h2 : (((2 : ℤ) ^ (52 : ℕ) : ℤ) : ℚ) ≤ (rne (q / ulp q) : ℚ) := by exact_mod_cast this
    have h3 : (2 : ℚ) ^ binade q ≤ roundMag q := by
      rw [hsplit2]; unfold roundMag
      apply mul_le_mul_of_nonneg_right _ huq.le
      simpa using h2
    have h4 : a < (2 : ℚ) ^ (binade a + 1) := lt_two_pow_binade a
    have h5 : (2 : ℚ) ^ (binade a + 1) ≤ (2 : ℚ) ^ binade q :=
      zpow_le_zpow_right₀ (by norm_num) (by omega)
    linarith

/-- Rounding is idempotent: a rounded magnitude is representable. -/
theorem roundMag_idem {a : ℚ} (ha : 0 ≤ a) : roundMag (roundMag a) = roundMag a := by
  rcases eq_or_lt_of_le ha with h0 | hpos
  · rw [← h0, roundMag_zero, roundMag_zero]
  have hu := ulp_pos a
  have hn0 : (0 : ℤ) ≤ rne (a / ulp a) :=
    le_rne_of_le _ 0 (by simpa using div_nonneg ha hu.le)
  have hsplit : (2 : ℚ) ^ (binade a + 1) = (2 : ℚ) ^ (53 : ℕ) * ulp a := by
    unfold ulp
    rw [← zpow_natCast, ← zpow_add₀ (by norm_num)]; congr 1; push_cast; ring
  have hsplit2 : (2 : ℚ) ^ binade a = (2 : ℚ) ^ (52 : ℕ) * ulp a := by
    unfold ulp
    rw [← zpow_natCast, ← zpow_add₀ (by norm_num)]; congr 1; push_cast; ring
  have hle : a / ulp a ≤ (((2 : ℤ) ^ (53 : ℕ) : ℤ) : ℚ) := by
    have h9 := (lt_two_pow_binade a).le
    rw [div_le_iff₀ hu]; rw [hsplit] at h9; norm_num at h9 ⊢; exact h9
  have hn1 : rne (a / ulp a) ≤ 2 ^ 53 := rne_le_of_le _ _ hle
  obtain ⟨n, hn⟩ := Int.eq_ofNat_of_zero_le hn0
  have hrm : roundMag a = (n : ℚ) * (2 : ℚ) ^ (binade a - 52) := by
    unfold roundMag; rw [hn]; rfl
  rw [hrm]
  have hn1' : n ≤ 2 ^ 53 := by rw [hn] at hn1; exact_mod_cast hn1
  rcases eq_or_lt_of_le hn1' with h53 | hlt
  · have : (n : ℚ) * (2 : ℚ) ^ (binade a - 52)
        = ((2 ^ 52 : ℕ) : ℚ) * (2 : ℚ) ^ ((binade a + 1) - 52) := by
      rw [h53]
      have : (2 : ℚ) ^ (binade a + 1 - 52) = 2 * (2 : ℚ) ^ (binade a - 52) := by
        rw [show binade a + 1 - 52 = 1 + (binade a - 52) by ring, zpow_add₀ (by norm_num)]
        simp
      rw [this]; push_cast; ring
    rw [this]
    exact roundMag_dyadic (2 ^ 52) (binade a + 1) (by norm_num)
      (by have := binade_ge a; omega) (Or.inr le_rfl)
  · apply roundMag_dyadic n (binade a) hlt (binade_ge a)
    by_cases hb : binade a = -1022
    · exact Or.inl hb
    · right
      have h1 := two_pow_binade_le hpos hb
      have hle2 : (((2 : ℤ) ^ (52 : ℕ) : ℤ) : ℚ) ≤ a / ulp a := by
        rw [le_div_iff₀ hu]; rw [hsplit2] at h1; norm_num at h1 ⊢; exact h1
      have := le_rne_of_le _ _ hle2
      rw [hn] at this
      exact_mod_cast this

theorem rep_zero : Rep 0 := roundMag_zero

/-- A rational `m / 2^k` with `m` of at most 53 bits is a binary64 number. -/
theorem rep_small (m k : ℕ) (hm : m < 2 ^ 53) (hk : k ≤ 1022) :
    Rep ((m : ℚ) / (2 : ℚ) ^ k) := by
  rcases Nat.eq_zero_or_pos m with h0 | hpos
  · subst h0; simpa using rep_zero
  have ht1 : 2 ^ Nat.log 2 m ≤ m := Nat.pow_log_le_self 2 hpos.ne'
  have ht2 : m < 2 ^ (Nat.log 2 m + 1) := Nat.lt_pow_succ_log_self (by norm_num) m
  have ht : Nat.log 2 m ≤ 52 := by
    by_contra hc
    have : 2 ^ 53 ≤ 2 ^ Nat.log 2 m := Nat.pow_le_pow_right (by norm_num) (by omega)
    omega
  obtain ⟨j, hj⟩ : ∃ j, Nat.log 2 m + j = 52 := ⟨52 - Nat.log 2 m, by omega⟩
  have hn1 : 2 ^ 52 ≤ m * 2 ^ j := by
    calc 2 ^ 52 = 2 ^ Nat.log 2 m * 2 ^ j := by rw [← pow_add, hj]
      _ ≤ m * 2 ^ j := Nat.mul_le_mul_right _ ht1
  have hn2 : m * 2 ^ j < 2 ^ 53 := by
    calc m * 2 ^ j < 2 ^ (Nat.log 2 m + 1) * 2 ^ j :=
          Nat.mul_lt_mul_of_pos_right ht2 (by positivity)
      _ = 2 ^ 53 := by rw [← pow_add]; congr 1; omega
  have key := roundMag_dyadic (m * 2 ^ j) (52 - (k : ℤ) - (j : ℤ)) hn2 (by omega) (Or.inr hn1)
  have hval : ((m * 2 ^ j : ℕ) : ℚ) * (2 : ℚ) ^ (52 - (k : ℤ) - (j : ℤ) - 52)
      = (m : ℚ) / (2 : ℚ) ^ k := by
    rw [show (52 - (k : ℤ) - (j : ℤ) - 52) = -(k : ℤ) + -(j : ℤ) by ring,
      zpow_add₀ (by norm_num), zpow_neg, zpow_neg, zpow_natCast, zpow_natCast]
    push_cast
    field_simp
    ring
  unfold Rep
  rw [← hval]; exact key

theorem rep_natCast (m : ℕ) (hm : m < 2 ^ 53) : Rep (m : ℚ) := by
  simpa using rep_small m 0 hm (by norm_num)

theorem two_pow_1024_gt (q : ℚ) (h : q ≤ 2 ^ 64) : ¬ ((2 : ℚ) ^ (1024 : ℕ) ≤ q) := by
  intro hc
  have : (2 : ℚ) ^ 64 < (2 : ℚ) ^ (1024 : ℕ) := by norm_num
  linarith

theorem round64_of_nonneg {q : ℚ} (hq : 0 ≤ q) :
    round64 q = if (2 : ℚ) ^ (1024 : ℕ) ≤ roundMag q then F64.inf false
      else F64.fin (roundMag q) := by
  unfold round64
  have h1 : ¬ q < 0 := not_lt.mpr hq
  simp [abs_of_nonneg hq, h1]

theorem round64_neg_of_pos {q : ℚ} (hq : 0 < q) :
    round64 (-q) = if (2 : ℚ) ^ (1024 : ℕ) ≤ roundMag q then F64.inf true
      else F64.fin (-roundMag q) := by
  unfold round64
  have h1 : -q < 0 := by linarith
  simp [abs_neg, abs_of_pos hq, hq]

/-- A representable number of moderate size is its own rounding. -/
theorem round64_rep {q : ℚ} (hq : 0 ≤ q) (hr : Rep q) (hb : q ≤ 2 ^ 64) :
    round64 q = F64.fin q := by
  rw [round64_of_nonneg hq, hr, if_neg (two_pow_1024_gt q hb)]

theorem round64_neg_rep {q : ℚ} (hq : 0 ≤ q) (hr : Rep q) (hb : q ≤ 2 ^ 64) :
    round64 (-q) = F64.fin (-q) := by
  rcases eq_or_lt_of_le hq with h0 | hpos
  · subst h0; simpa using round64_rep le_rfl rep_zero (by norm_num)
  · rw [round64_neg_of_pos hpos, hr, if_neg (two_pow_1024_gt q hb)]

/-- Rounding stays between two representable bounds. -/
theorem round64_bounds {q a b : ℚ} (h0 : 0 ≤ a) (h1 : a ≤ q) (h2 : q ≤ b)
    (ra : Rep a) (rb : Rep b) (hb : b ≤ 2 ^ 64) :
    ∃ r, round64 q = F64.fin r ∧ a ≤ r ∧ r ≤ b ∧ Rep r := by
  have hq : 0 ≤ q := le_trans h0 h1
  have hup : roundMag q ≤ b := by
    rcases eq_or_lt_of_le hq with hz | hpos
    · rw [← hz, roundMag_zero]; exact le_trans hq h2
    · exact roundMag_le hpos h2 rb
  have hlow : a ≤ roundMag q := by
    rcases eq_or_lt_of_le h0 with hz | hpos
    · rw [← hz]; exact roundMag_nonneg hq
    · exact le_roundMag hpos h1 ra
  refine ⟨roundMag q, ?_, hlow, hup, roundMag_idem hq⟩
  rw [round64_of_nonneg hq, if_neg (two_pow_1024_gt _ (le_trans hup hb))]

/-- Rounding stays above a representable lower bound (it may overflow). -/
theorem round64_lower {q a : ℚ} (h0 : 0 < a) (h1 : a ≤ q) (ra : Rep a) :
    round64 q = F64.inf false ∨ ∃ r, round64 q = F64.fin r ∧ a ≤ r := by
  have hq : 0 ≤ q := le_trans h0.le h1
  rw [round64_of_nonneg hq]
  split_ifs with h
  · exact Or.inl rfl
  · exact Or.inr ⟨_, rfl, le_roundMag h0 h1 ra⟩

theorem rne_eq_of_near {x : ℚ} {n : ℤ} (h1 : (n : ℚ) - 1 / 2 < x) (h2 : x < (n : ℚ) + 1 / 2) :
    rne x = n := by
  rcases le_or_lt (n : ℚ) x with h | h
  · have hf : ⌊x⌋ = n := by
      rw [Int.floor_eq_iff]; constructor <;> linarith
    unfold rne
    simp only [hf]
    rw [if_pos (by linarith)]
  · have hf : ⌊x⌋ = n - 1 := by
      rw [Int.floor_eq_iff]; push_cast; constructor <;> linarith
    unfold rne
    simp only [hf]
    push_cast
    rw [if_neg (by linarith), if_pos (by linarith)]
    ring

/-- The model reproduces the float64 nearest to one tenth,
`0x3FB999999999999A = 3602879701896397 / 2^55`. -/
theorem round64_one_tenth :
    round64 (1 / 10) = F64.fin (3602879701896397 / 36028797018963968) := by
  have hb : binade (1 / 10) = -4 :=
    binade_eq_of (by norm_num) (by norm_num) (by norm_num) (Or.inr (by norm_num))
  have hu : ulp (1 / 10) = 1 / 72057594037927936 := by
    unfold ulp; rw [hb]; norm_num
  have hr : rne (1 / 10 / ulp (1 / 10)) = 7205759403792794 := by
    rw [hu]
    apply rne_eq_of_near <;> norm_num
  have hm : roundMag (1 / 10) = 3602879701896397 / 36028797018963968 := by
    unfold roundMag
    rw [hr, hu]; norm_num
  rw [round64_of_nonneg (by norm_num), hm, if_neg (two_pow_1024_gt _ (by norm_num))]

theorem ofInt_fifty : F64.ofInt 50 = F64.fin 50 := by
  unfold F64.ofInt
  have := round64_rep (q := 50) (by norm_num) (by simpa using rep_natCast 50 (by norm_num)) (by norm_num)
  simpa using this

theorem round64_neg_of_fin {q r : ℚ} (hq : 0 ≤ q) (h : round64 q = F64.fin r) :
    round64 (-q) = F64.fin (-r) := by
  rcases eq_or_lt_of_le hq with h0 | hpos
  · subst h0
    have h1 : round64 0 = F64.fin 0 := round64_rep le_rfl rep_zero (by norm_num)
    rw [h1] at h
    have : r = 0 := by injection h with h; exact h.symm
    subst this; simpa using h1
  · rw [round64_of_nonneg hq] at h
    rw [round64_neg_of_pos hpos]
    split_ifs at h ⊢ with hc
    injection h with h
    rw [h]

theorem truncToInt_neg (q : ℚ) : truncToInt (-q) = -truncToInt q := by
  unfold truncToInt
  rcases lt_trichotomy q 0 with h | h | h
  · have h1 : (0 : ℚ) ≤ -q := by linarith
    have h2 : ¬ (0 : ℚ) ≤ q := not_le.mpr h
    rw [if_pos h1, if_neg h2, Int.floor_neg]
  · subst h; simp
  · have h1 : ¬ (0 : ℚ) ≤ -q := by linarith
    rw [if_neg h1, if_pos h.le, Int.ceil_neg]

theorem truncToInt_of_nonneg {q : ℚ} (h : 0 ≤ q) : truncToInt q = ⌊q⌋ := by
  unfold truncToInt; rw [if_pos h]

theorem floor_bounds {g : ℚ} {n : ℤ} (h0 : 0 ≤ g) (h1 : g ≤ n) : 0 ≤ ⌊g⌋ ∧ ⌊g⌋ ≤ n := by
  constructor
  · exact Int.floor_nonneg.mpr h0
  · have := Int.floor_le_floor h1
    simpa using this

theorem toInt_fin_of_small (P : Platform) {g : ℚ} (h0 : 0 ≤ g) (h1 : g ≤ 50) :
    P.toInt (F64.fin g) = ⌊g⌋ ∧ P.toInt (F64.fin (-g)) = -⌊g⌋ := by
  have hb := floor_bounds (n := 50) h0 (by simpa using h1)
  have e1 : truncToInt g = ⌊g⌋ := truncToInt_of_nonneg h0
  have e2 : truncToInt (-g) = -⌊g⌋ := by rw [truncToInt_neg, e1]
  constructor
  · show (if -2 ^ 63 ≤ truncToInt g ∧ truncToInt g < 2 ^ 63 then truncToInt g
      else P.convInvalid (F64.fin g)) = ⌊g⌋
    rw [e1, if_pos (by constructor <;> omega)]
  · show (if -2 ^ 63 ≤ truncToInt (-g) ∧ truncToInt (-g) < 2 ^ 63 then truncToInt (-g)
      else P.convInvalid (F64.fin (-g))) = -⌊g⌋
    rw [e2, if_pos (by constructor <;> omega)]

/-- From bounds on `expectedWinner` to the two rating changes as floats. -/
theorem delta_of_expected (P : Platform) (w l : ℤ) {e c d : ℚ}
    (hE : expectedWinner P w l = F64.fin e) (h0 : 0 ≤ c) (h1 : c ≤ e) (h2 : e ≤ d)
    (h3 : d ≤ 1) (r1 : Rep (1 - d)) (r2 : Rep (1 - c))
    (r3 : Rep (50 * (1 - d))) (r4 : Rep (50 * (1 - c))) :
    ∃ g, winnerDelta P w l = F64.fin g ∧ loserDelta P w l = F64.fin (-g) ∧
      50 * (1 - d) ≤ g ∧ g ≤ 50 * (1 - c) := by
  obtain ⟨v, hv, hv1, hv2, hvr⟩ := round64_bounds (q := 1 - e) (a := 1 - d) (b := 1 - c)
    (by linarith) (by linarith) (by linarith) r1 r2 (by norm_num; linarith)
  have hv0 : 0 ≤ v := by linarith
  obtain ⟨g, hg, hg1, hg2, _⟩ := round64_bounds (q := 50 * v) (a := 50 * (1 - d))
    (b := 50 * (1 - c)) (by linarith) (by linarith) (by linarith) r3 r4
    (by norm_num; linarith)
  have hsub : F64.sub (F64.fin 1) (F64.fin e) = F64.fin v := hv
  have hneg : F64.sub (F64.fin 0) (F64.fin v) = F64.fin (-v) := by
    show round64 (0 - v) = F64.fin (-v)
    rw [zero_sub]; exact round64_neg_rep hv0 hvr (by linarith)
  have hmul : F64.mul (F64.fin 50) (F64.fin (-v)) = F64.fin (-g) := by
    show round64 (50 * -v) = F64.fin (-g)
    rw [mul_neg]; exact round64_neg_of_fin (by linarith) hg
  refine ⟨g, ?_, ?_, hg1, hg2⟩
  · unfold winnerDelta; rw [hE, hsub, ofInt_fifty]; exact hg
  · unfold loserDelta expectedLoser; rw [hE, hsub, hneg, ofInt_fifty]; exact hmul

/-- From bounds on the result of `math.Pow` to bounds on `expectedWinner`. -/
theorem expected_of_pow (P : Platform) (w l : ℤ) {q a b c d : ℚ}
    (hp : P.mathPow (F64.fin 10) (powArg w l) = F64.fin q)
    (h0 : 0 ≤ a) (h1 : a ≤ q) (h2 : q ≤ b) (h3 : b ≤ 2 ^ 63)
    (r1 : Rep (1 + a)) (r2 : Rep (1 + b)) (r3 : Rep c) (r4 : Rep d)
    (he0 : 0 ≤ c) (he1 : c * (1 + b) ≤ 1) (he2 : 1 ≤ d * (1 + a)) (he3 : d ≤ 1) :
    ∃ e, expectedWinner P w l = F64.fin e ∧ c ≤ e ∧ e ≤ d := by
  obtain ⟨s, hs, hs1, hs2, _⟩ := round64_bounds (q := 1 + q) (a := 1 + a) (b := 1 + b)
    (by linarith) (by linarith) (by linarith) r1 r2 (by norm_num at h3 ⊢; linarith)
  have hspos : 0 < s := by linarith
  have hlo : c ≤ 1 / s := by
    rw [le_div_iff₀ hspos]
    calc c * s ≤ c * (1 + b) := mul_le_mul_of_nonneg_left hs2 he0
      _ ≤ 1 := he1
  have hhi : 1 / s ≤ d := by
    rw [div_le_iff₀ hspos]
    have : 0 ≤ d := by
      by_contra hc
      have : d * (1 + a) < 0 := mul_neg_of_neg_of_pos (not_le.mp hc) (by linarith)
      linarith
    calc 1 ≤ d * (1 + a) := he2
      _ ≤ d * s := mul_le_mul_of_nonneg_left hs1 this
  obtain ⟨e, he, hea, heb, _⟩ := round64_bounds (q := 1 / s) he0 hlo hhi r3 r4
    (by norm_num; linarith)
  refine ⟨e, ?_, hea, heb⟩
  unfold expectedWinner
  rw [hp]
  show F64.div (F64.fin 1) (round64 (1 + q)) = F64.fin e
  rw [hs]
  show (if s = 0 then _ else round64 (1 / s)) = F64.fin e
  rw [if_neg hspos.ne']; exact he

theorem rep_one : Rep 1 := by simpa using rep_natCast 1 (by norm_num)

theorem rep_fifty : Rep 50 := by simpa using rep_natCast 50 (by norm_num)

/-- Whatever non-negative number or `+Inf` `math.Pow` returns, `expectedWinner`
is a float between 0 and 1. -/
theorem expected_unit (P : Platform) (w l : ℤ)
    (hp : F64.nonneg (P.mathPow (F64.fin 10) (powArg w l))) :
    ∃ e, expectedWinner P w l = F64.fin e ∧ 0 ≤ e ∧ e ≤ 1 := by
  unfold expectedWinner
  cases hpw : P.mathPow (F64.fin 10) (powArg w l) with
  | nan => rw [hpw] at hp; exact absurd hp (by simp [F64.nonneg])
  | inf s =>
    rw [hpw] at hp
    have hs : s = false := hp
    subst hs
    exact ⟨0, rfl, le_rfl, by norm_num⟩
  | fin q =>
    rw [hpw] at hp
    have hq : 0 ≤ q := hp
    show ∃ e, F64.div (F64.fin 1) (round64 (1 + q)) = F64.fin e ∧ 0 ≤ e ∧ e ≤ 1
    rcases round64_lower (q := 1 + q) (a := 1) (by norm_num) (by linarith) rep_one with h | ⟨s, h, hs⟩
    · rw [h]; exact ⟨0, rfl, le_rfl, by norm_num⟩
    · rw [h]
      have hspos : 0 < s := by linarith
      obtain ⟨e, he, hea, heb, _⟩ := round64_bounds (q := 1 / s) (a := 0) (b := 1) le_rfl
        (by positivity) (by rw [div_le_iff₀ hspos]; linarith) rep_zero rep_one (by norm_num)
      refine ⟨e, ?_, hea, heb⟩
      show (if s = 0 then _ else round64 (1 / s)) = F64.fin e
      rw [if_neg hspos.ne']; exact he

/-- The two rating changes of `updateElo`: one float `g` in `[0, 50]`, added to
the winner and subtracted from the loser after its fraction is discarded. -/
theorem change_spec (P : Platform) (w l : ℤ)
    (hp : F64.nonneg (P.mathPow (F64.fin 10) (powArg w l))) :
    ∃ g : ℚ, winnerDelta P w l = F64.fin g ∧ loserDelta P w l = F64.fin (-g) ∧
      0 ≤ g ∧ g ≤ 50 ∧ eloChangeWinner P w l = ⌊g⌋ ∧ eloChangeLoser P w l = -⌊g⌋ := by
  obtain ⟨e, hE, he0, he1⟩ := expected_unit P w l hp
  obtain ⟨g, hg1, hg2, hg3, hg4⟩ := delta_of_expected P w l hE le_rfl he0 he1 le_rfl
    (by simpa using rep_zero) (by simpa using rep_one) (by simpa using rep_zero)
    (by simpa using rep_fifty)
  have h0 : 0 ≤ g := by simpa using hg3
  have h50 : g ≤ 50 := by simpa using hg4
  have ht := toInt_fin_of_small P h0 h50
  refine ⟨g, hg1, hg2, h0, h50, ?_, ?_⟩
  · unfold eloChangeWinner; rw [hg1]; exact ht.1
  · unfold eloChangeLoser; rw [hg2]; exact ht.2

theorem wrap64_of_range {z : ℤ} (h1 : -2 ^ 63 ≤ z) (h2 : z < 2 ^ 63) : wrap64 z = z := by
  unfold wrap64; omega

theorem wrap64_add_wrap64 (a b : ℤ) : wrap64 (wrap64 a + wrap64 b) = wrap64 (a + b) := by
  unfold wrap64; omega

theorem round64_zero : round64 0 = F64.fin 0 := round64_rep le_rfl rep_zero (by norm_num)

theorem div_fin_fin {a b : ℚ} (hb : b ≠ 0) :
    F64.div (F64.fin a) (F64.fin b) = round64 (a / b) := by
  simp [F64.div, hb]

theorem powArg_self (w : ℤ) : powArg w w = F64.fin 0 := by
  unfold powArg F64.ofInt
  rw [sub_self, wrap64_of_range (by norm_num) (by norm_num)]
  simp only [Int.cast_zero, round64_zero]
  rw [div_fin_fin (by norm_num), zero_div, round64_zero]

theorem rep_div_pow (m k : ℕ) (q : ℚ) (hq : q = (m : ℚ) / (2 : ℚ) ^ k) (hm : m < 2 ^ 53)
    (hk : k ≤ 1022) : Rep q := by
  rw [hq]; exact rep_small m k hm hk

/-- Equal ratings with `Pow(10, 0) = 1`: the floats are exactly 1/2, 25 and -25. -/
theorem equal_floats (P : Platform) (w : ℤ)
    (hpow : P.mathPow (F64.fin 10) (F64.fin 0) = F64.fin 1) :
    expectedWinner P w w = F64.fin (1 / 2) ∧ winnerDelta P w w = F64.fin 25 ∧
      loserDelta P w w = F64.fin (-25) := by
  have hp : P.mathPow (F64.fin 10) (powArg w w) = F64.fin 1 := by rw [powArg_self]; exact hpow
  have rhalf : Rep (1 / 2) := rep_div_pow 1 1 _ (by norm_num) (by norm_num) (by norm_num)
  obtain ⟨e, hE, he1, he2⟩ := expected_of_pow P w w (a := 1) (b := 1) (c := 1 / 2)
    (d := 1 / 2) hp (by norm_num) le_rfl le_rfl (by norm_num)
    (rep_div_pow 2 0 _ (by norm_num) (by norm_num) (by norm_num))
    (rep_div_pow 2 0 _ (by norm_num) (by norm_num) (by norm_num))
    rhalf rhalf (by norm_num) (by norm_num) (by norm_num) (by norm_num)
  have he : e = 1 / 2 := le_antisymm he2 he1
  subst he
  obtain ⟨g, hg1, hg2, hg3, hg4⟩ := delta_of_expected P w w (c := 1 / 2) (d := 1 / 2) hE
    (by norm_num) le_rfl le_rfl (by norm_num)
    (rep_div_pow 1 1 _ (by norm_num) (by norm_num) (by norm_num))
    (rep_div_pow 1 1 _ (by norm_num) (by norm_num) (by norm_num))
    (rep_div_pow 25 0 _ (by norm_num) (by norm_num) (by norm_num))
    (rep_div_pow 25 0 _ (by norm_num) (by norm_num) (by norm_num))
  have hg : g = 25 := by
    norm_num at hg3 hg4; exact le_antisymm hg4 hg3
  subst hg
  exact ⟨hE, hg1, hg2⟩

theorem equal_changes (P : Platform) (w : ℤ)
    (hpow : P.mathPow (F64.fin 10) (F64.fin 0) = F64.fin 1) :
    eloChangeWinner P w w = 25 ∧ eloChangeLoser P w w = -25 := by
  obtain ⟨_, h1, h2⟩ := equal_floats P w hpow
  have ht := toInt_fin_of_small P (g := 25) (by norm_num) (by norm_num)
  have hf : ⌊(25 : ℚ)⌋ = 25 := by
    rw [Int.floor_eq_iff]; constructor <;> norm_num
  unfold eloChangeWinner eloChangeLoser
  rw [h1, h2, ht.1, ht.2, hf]
  exact ⟨rfl, rfl⟩

theorem powArg_1600_1400 : powArg 1600 1400 = F64.fin (-1 / 2) := by
  unfold powArg F64.ofInt
  rw [show (1400 : ℤ) - 1600 = -200 by norm_num, wrap64_of_range (by norm_num) (by norm_num)]
  have h1 : round64 (((-200 : ℤ)) : ℚ) = F64.fin (-200) := by
    have := round64_neg_rep (q := 200) (by norm_num)
      (rep_div_pow 200 0 _ (by norm_num) (by norm_num) (by norm_num)) (by norm_num)
    simpa using this
  rw [h1]
  rw [div_fin_fin (by norm_num)]
  have h2 := round64_neg_rep (q := 1 / 2) (by norm_num)
    (rep_div_pow 1 1 _ (by norm_num) (by norm_num) (by norm_num)) (by norm_num)
  have e1 : (-200 : ℚ) / 400 = -(1 / 2) := by norm_num
  have e2 : (-1 : ℚ) / 2 = -(1 / 2) := by norm_num
  rw [e1, e2]; exact h2

/-- Worked example 1600 against 1400: the winner's float change lies strictly
between 12 and 13 once `Pow(10, -0.5)` is within `[0.3160, 0.3281]`. -/
theorem floats_1600_1400 (P : Platform)
    (hb : F64.between (20710 / 65536) (21 / 64) (P.mathPow (F64.fin 10) (F64.fin (-1 / 2)))) :
    ∃ g, winnerDelta P 1600 1400 = F64.fin g ∧ loserDelta P 1600 1400 = F64.fin (-g) ∧
      12 < g ∧ g < 13 := by
  cases hpw : P.mathPow (F64.fin 10) (F64.fin (-1 / 2)) with
  | nan => rw [hpw] at hb; exact absurd hb (by simp [F64.between])
  | inf s => rw [hpw] at hb; exact absurd hb (by simp [F64.between])
  | fin q =>
    rw [hpw] at hb
    have hq : 20710 / 65536 ≤ q ∧ q ≤ 21 / 64 := hb
    have hp : P.mathPow (F64.fin 10) (powArg 1600 1400) = F64.fin q := by
      rw [powArg_1600_1400]; exact hpw
    obtain ⟨e, hE, he1, he2⟩ := expected_of_pow P 1600 1400 (a := 20710 / 65536)
      (b := 21 / 64) (c := 3 / 4) (d := 49802 / 65536) hp (by norm_num) hq.1 hq.2
      (by norm_num)
      (rep_div_pow 86246 16 _ (by norm_num) (by norm_num) (by norm_num))
      (rep_div_pow 85 6 _ (by norm_num) (by norm_num) (by norm_num))
      (rep_div_pow 3 2 _ (by norm_num) (by norm_num) (by norm_num))
      (rep_div_pow 49802 16 _ (by norm_num) (by norm_num) (by norm_num))
      (by norm_num) (by norm_num) (by norm_num) (by norm_num)
    obtain ⟨g, hg1, hg2, hg3, hg4⟩ := delta_of_expected P 1600 1400 (c := 3 / 4)
      (d := 49802 / 65536) hE (by norm_num) he1 he2 (by norm_num)
      (rep_div_pow 15734 16 _ (by norm_num) (by norm_num) (by norm_num))
      (rep_div_pow 1 2 _ (by norm_num) (by norm_num) (by norm_num))
      (rep_div_pow 786700 16 _ (by norm_num) (by norm_num) (by norm_num))
      (rep_div_pow 25 1 _ (by norm_num) (by norm_num) (by norm_num))
    refine ⟨g, hg1, hg2, ?_, ?_⟩
    · norm_num at hg3; linarith
    · norm_num at hg4; linarith

theorem changes_1600_1400 (P : Platform)
    (hb : F64.between (20710 / 65536) (21 / 64) (P.mathPow (F64.fin 10) (F64.fin (-1 / 2)))) :
    eloChangeWinner P 1600 1400 = 12 ∧ eloChangeLoser P 1600 1400 = -12 ∧
      ⌊F64.toRat (loserDelta P 1600 1400)⌋ = -13 := by
  obtain ⟨g, hg1, hg2, hg3, hg4⟩ := floats_1600_1400 P hb
  have ht := toInt_fin_of_small P (g := g) (by linarith) (by linarith)
  have hf : ⌊g⌋ = 12 := by
    rw [Int.floor_eq_iff]; constructor <;> norm_num <;> linarith
  have hf2 : ⌊-g⌋ = -13 := by
    rw [Int.floor_eq_iff]; constructor <;> norm_num <;> linarith
  unfold eloChangeWinner eloChangeLoser
  rw [hg1, hg2, ht.1, ht.2, hf]
  exact ⟨rfl, rfl, hf2⟩

/-- The constant `sqrt10` is the correctly rounded square root of 10: the
square root lies within half a unit in the last place (`2^-52`) of it. -/
theorem sqrt10_nearest :
    Rep sqrt10 ∧ (sqrt10 - 1 / 2 ^ 52) ^ 2 < 10 ∧ 10 < (sqrt10 + 1 / 2 ^ 52) ^ 2 := by
  refine ⟨rep_div_pow 7120816245988179 51 _ (by unfold sqrt10; norm_num) (by norm_num)
    (by norm_num), ?_, ?_⟩ <;> unfold sqrt10 <;> norm_num

theorem powTable_zero : refPlatform.mathPow (F64.fin 10) (F64.fin 0) = F64.fin 1 := by
  show powTable (F64.fin 10) (F64.fin 0) = F64.fin 1
  simp [powTable]

theorem powTable_neg_half :
    F64.between (20710 / 65536) (21 / 64) (refPlatform.mathPow (F64.fin 10) (F64.fin (-1 / 2))) := by
  show F64.between (20710 / 65536) (21 / 64) (powTable (F64.fin 10) (F64.fin (-1 / 2)))
  have h : powTable (F64.fin 10) (F64.fin (-1 / 2)) = round64 (1 / sqrt10) := by
    unfold powTable
    simp only
    rw [if_neg (by norm_num), if_neg (by norm_num), if_pos (by norm_num)]
    exact div_fin_fin (by unfold sqrt10; norm_num)
  obtain ⟨r, hr, h1, h2, _⟩ := round64_bounds (q := 1 / sqrt10) (a := 20710 / 65536)
    (b := 21 / 64) (by norm_num) (by unfold sqrt10; norm_num) (by unfold sqrt10; norm_num)
    (rep_div_pow 20710 16 _ (by norm_num) (by norm_num) (by norm_num))
    (rep_div_pow 21 6 _ (by norm_num) (by norm_num) (by norm_num)) (by norm_num)
  rw [h, hr]
  exact ⟨h1, h2⟩

theorem powTable_half :
    F64.between (101 / 32) (405 / 128) (refPlatform.mathPow (F64.fin 10) (F64.fin (1 / 2))) := by
  show F64.between (101 / 32) (405 / 128) (powTable (F64.fin 10) (F64.fin (1 / 2)))
  have h : powTable (F64.fin 10) (F64.fin (1 / 2)) = F64.fin sqrt10 := by
    unfold powTable
    simp only
    rw [if_neg (by norm_num), if_pos (by norm_num)]
  rw [h]
  show 101 / 32 ≤ sqrt10 ∧ sqrt10 ≤ 405 / 128
  unfold sqrt10
  constructor <;> norm_num

theorem powArg_of_200 {w l : ℤ} (h : wrap64 (l - w) = 200) : powArg w l = F64.fin (1 / 2) := by
  unfold powArg F64.ofInt
  rw [h]
  have h1 : round64 (((200 : ℤ)) : ℚ) = F64.fin 200 := by
    have := round64_rep (q := 200) (by norm_num)
      (rep_div_pow 200 0 _ (by norm_num) (by norm_num) (by norm_num)) (by norm_num)
    simpa using this
  rw [h1, div_fin_fin (by norm_num)]
  have h2 := round64_rep (q := 1 / 2) (by norm_num)
    (rep_div_pow 1 1 _ (by norm_num) (by norm_num) (by norm_num)) (by norm_num)
  rw [show (200 : ℚ) / 400 = 1 / 2 by norm_num]; exact h2

/-- A loser 200 points above the winner: the winner's float change lies strictly
between 37 and 38 once `Pow(10, 0.5)` is within `[3.156, 3.165]`. -/
theorem floats_of_half (P : Platform) (w l : ℤ) (hy : powArg w l = F64.fin (1 / 2))
    (hb : F64.between (101 / 32) (405 / 128) (P.mathPow (F64.fin 10) (F64.fin (1 / 2)))) :
    ∃ g, winnerDelta P w l = F64.fin g ∧ loserDelta P w l = F64.fin (-g) ∧
      37 < g ∧ g < 38 := by
  cases hpw : P.mathPow (F64.fin 10) (F64.fin (1 / 2)) with
  | nan => rw [hpw] at hb; exact absurd hb (by simp [F64.between])
  | inf s => rw [hpw] at hb; exact absurd hb (by simp [F64.between])
  | fin q =>
    rw [hpw] at hb
    have hq : 101 / 32 ≤ q ∧ q ≤ 405 / 128 := hb
    have hp : P.mathPow (F64.fin 10) (powArg w l) = F64.fin q := by rw [hy]; exact hpw
    obtain ⟨e, hE, he1, he2⟩ := expected_of_pow P w l (a := 101 / 32)
      (b := 405 / 128) (c := 15732 / 65536) (d := 1 / 4) hp (by norm_num) hq.1 hq.2
      (by norm_num)
      (rep_div_pow 133 5 _ (by norm_num) (by norm_num) (by norm_num))
      (rep_div_pow 533 7 _ (by norm_num) (by norm_num) (by norm_num))
      (rep_div_pow 15732 16 _ (by norm_num) (by norm_num) (by norm_num))
      (rep_div_pow 1 2 _ (by norm_num) (by norm_num) (by norm_num))
      (by norm_num) (by norm_num) (by norm_num) (by norm_num)
    obtain ⟨g, hg1, hg2, hg3, hg4⟩ := delta_of_expected P w l (c := 15732 / 65536)
      (d := 1 / 4) hE (by norm_num) he1 he2 (by norm_num)
      (rep_div_pow 3 2 _ (by norm_num) (by norm_num) (by norm_num))
      (rep_div_pow 49804 16 _ (by norm_num) (by norm_num) (by norm_num))
      (rep_div_pow 75 1 _ (by norm_num) (by norm_num) (by norm_num))
      (rep_div_pow 2490200 16 _ (by norm_num) (by norm_num) (by norm_num))
    refine ⟨g, hg1, hg2, ?_, ?_⟩
    · norm_num at hg3; linarith
    · norm_num at hg4; linarith

theorem changes_of_half (P : Platform) (w l : ℤ) (hy : powArg w l = F64.fin (1 / 2))
    (hb : F64.between (101 / 32) (405 / 128) (P.mathPow (F64.fin 10) (F64.fin (1 / 2)))) :
    eloChangeWinner P w l = 37 ∧ eloChangeLoser P w l = -37 := by
  obtain ⟨g, hg1, hg2, hg3, hg4⟩ := floats_of_half P w l hy hb
  have ht := toInt_fin_of_small P (g := g) (by linarith) (by linarith)
  have hf : ⌊g⌋ = 37 := by
    rw [Int.floor_eq_iff]; constructor <;> norm_num <;> linarith
  unfold eloChangeWinner eloChangeLoser
  rw [hg1, hg2, ht.1, ht.2, hf]
  exact ⟨rfl, rfl⟩

theorem between_mono {lo hi lo2 hi2 : ℚ} {x : F64} (h : F64.between lo hi x)
    (h1 : lo2 ≤ lo) (h2 : hi ≤ hi2) : F64.between lo2 hi2 x := by
  cases x with
  | nan => exact h
  | inf s => exact h
  | fin q => exact ⟨le_trans h1 h.1, le_trans h.2 h2⟩

theorem nonneg_of_between {lo hi : ℚ} {x : F64} (h : F64.between lo hi x) (h0 : 0 ≤ lo) :
    F64.nonneg x := by
  cases x with
  | nan => exact h
  | inf s => exact absurd h (by simp [F64.between])
  | fin q => exact le_trans h0 h.1

theorem rep_two_pow_63 : Rep ((2 : ℚ) ^ 63) := by
  have := roundMag_dyadic (2 ^ 52) 63 (by norm_num) (by norm_num) (Or.inr le_rfl)
  unfold Rep
  norm_num at this ⊢
  exact this

/-- A winner rated above the loser, with a difference that fits `int`, passes
`math.Pow` a finite exponent of at most `-1/512`. -/
theorem powArg_of_lt {w l : ℤ} (hwl : l < w) (hd : -2 ^ 63 ≤ l - w) :
    ∃ y, powArg w l = F64.fin y ∧ y ≤ -1 / 512 := by
  unfold powArg F64.ofInt
  rw [wrap64_of_range hd (by omega)]
  have hm1 : (1 : ℚ) ≤ ((w - l : ℤ) : ℚ) := by exact_mod_cast (by omega : (1 : ℤ) ≤ w - l)
  have hm2 : ((w - l : ℤ) : ℚ) ≤ 2 ^ 63 := by exact_mod_cast (by omega : w - l ≤ 2 ^ 63)
  obtain ⟨r, hr, hr1, hr2, _⟩ := round64_bounds (q := ((w - l : ℤ) : ℚ)) (a := 1)
    (b := 2 ^ 63) (by norm_num) hm1 hm2 rep_one rep_two_pow_63 (by norm_num)
  have hneg : round64 (((l - w : ℤ)) : ℚ) = F64.fin (-r) := by
    have := round64_neg_of_fin (by linarith) hr
    have e : ((l - w : ℤ) : ℚ) = -((w - l : ℤ) : ℚ) := by push_cast; ring
    rw [e]; exact this
  rw [hneg, div_fin_fin (by norm_num)]
  obtain ⟨y, hy, hy1, _, _⟩ := round64_bounds (q := r / 400) (a := 1 / 512) (b := 2 ^ 63)
    (by norm_num) (by rw [le_div_iff₀ (by norm_num)]; linarith)
    (by rw [div_le_iff₀ (by norm_num)]; linarith)
    (rep_div_pow 1 9 _ (by norm_num) (by norm_num) (by norm_num)) rep_two_pow_63 (by norm_num)
  refine ⟨-y, ?_, by linarith⟩
  have := round64_neg_of_fin (by positivity) hy
  rw [show -r / 400 = -(r / 400) by ring]; exact this

/-- C1: for every winner rating w and loser rating l, updateElo adds to w the
float K*(1 - E) and to l the float K*(0 - (1 - E)), each with its fraction
discarded toward zero (floor of the non-negative one, ceiling of the
non-positive one), where E = 1/(1 + Pow(10, (l - w)/400)) and K = 50;
1600 against 1400 gives 1612 and 1388 (12.01 and -12.01 become 12 and -12),
and 1400 against 1600 gives 1437 and 1563 (37.98 becomes 37, not 38). -/
theorem updateElo_truncates_toward_zero (P : Platform) (winner loser : anime)
    (hp : F64.nonneg (P.mathPow (F64.fin 10) (powArg winner.Elo loser.Elo))) :
    expectedWinner P winner.Elo loser.Elo
        = F64.div (F64.fin 1) (F64.add (F64.fin 1) (P.mathPow (F64.fin 10)
            (F64.div (F64.ofInt (wrap64 (loser.Elo - winner.Elo))) (F64.fin 400)))) ∧
    (∃ x : ℚ,
      F64.mul (F64.fin 50) (F64.sub (F64.fin 1) (expectedWinner P winner.Elo loser.Elo))
        = F64.fin x ∧
      F64.mul (F64.fin 50) (F64.sub (F64.fin 0)
        (F64.sub (F64.fin 1) (expectedWinner P winner.Elo loser.Elo))) = F64.fin (-x) ∧
      0 ≤ x ∧ truncToInt x = ⌊x⌋ ∧ truncToInt (-x) = ⌈-x⌉ ∧
      (updateElo P winner loser).1.Elo = wrap64 (winner.Elo + truncToInt x) ∧
      (updateElo P winner loser).2.Elo = wrap64 (loser.Elo + truncToInt (-x))) ∧
    (winner.Elo = 1600 → loser.Elo = 1400 →
      F64.between (20710 / 65536) (21 / 64) (P.mathPow (F64.fin 10) (F64.fin (-1 / 2))) →
      (updateElo P winner loser).1.Elo = 1612 ∧ (updateElo P winner loser).2.Elo = 1388) ∧
    (winner.Elo = 1400 → loser.Elo = 1600 →
      F64.between (101 / 32) (405 / 128) (P.mathPow (F64.fin 10) (F64.fin (1 / 2))) →
      (updateElo P winner loser).1.Elo = 1437 ∧ (updateElo P winner loser).2.Elo = 1563) := by
  refine ⟨rfl, ?_, ?_, ?_⟩
  · obtain ⟨g, hg1, hg2, h0, h50, hw, hl⟩ := change_spec P winner.Elo loser.Elo hp
    have t1 : truncToInt g = ⌊g⌋ := truncToInt_of_nonneg h0
    have t2 : truncToInt (-g) = ⌈-g⌉ := by rw [truncToInt_neg, t1, Int.ceil_neg]
    have t3 : truncToInt (-g) = -⌊g⌋ := by rw [truncToInt_neg, t1]
    refine ⟨g, ?_, ?_, h0, t1, t2, ?_, ?_⟩
    · rw [← ofInt_fifty]; exact hg1
    · rw [← ofInt_fifty]; exact hg2
    · show wrap64 (winner.Elo + eloChangeWinner P winner.Elo loser.Elo) = _
      rw [hw, t1]
    · show wrap64 (loser.Elo + eloChangeLoser P winner.Elo loser.Elo) = _
      rw [hl, t3]
  · intro h1 h2 hb
    obtain ⟨c1, c2, _⟩ := changes_1600_1400 P hb
    constructor
    · show wrap64 (winner.Elo + eloChangeWinner P winner.Elo loser.Elo) = _
      rw [h1, h2, c1]; exact wrap64_of_range (by norm_num) (by norm_num)
    · show wrap64 (loser.Elo + eloChangeLoser P winner.Elo loser.Elo) = _
      rw [h1, h2, c2]; exact wrap64_of_range (by norm_num) (by norm_num)
  · intro h1 h2 hb
    have hy : powArg 1400 1600 = F64.fin (1 / 2) :=
      powArg_of_200 (wrap64_of_range (by norm_num) (by norm_num))
    obtain ⟨c1, c2⟩ := changes_of_half P 1400 1600 hy hb
    constructor
    · show wrap64 (winner.Elo + eloChangeWinner P winner.Elo loser.Elo) = _
      rw [h1, h2, c1]; exact wrap64_of_range (by norm_num) (by norm_num)
    · show wrap64 (loser.Elo + eloChangeLoser P winner.Elo loser.Elo) = _
      rw [h1, h2, c2]; exact wrap64_of_range (by norm_num) (by norm_num)

/-- The worked example of C1 on the reference platform: 1600 beats 1400. -/
theorem updateElo_truncates_toward_zero_witness :
    F64.nonneg (refPlatform.mathPow (F64.fin 10) (powArg rowA.Elo rowB.Elo)) ∧
    (updateElo refPlatform rowA rowB).1.Elo = 1612 ∧
    (updateElo refPlatform rowA rowB).2.Elo = 1388 :=
  have hp : F64.nonneg (refPlatform.mathPow (F64.fin 10) (powArg rowA.Elo rowB.Elo)) := by
    show F64.nonneg (refPlatform.mathPow (F64.fin 10) (powArg 1600 1400))
    rw [powArg_1600_1400]
    exact nonneg_of_between powTable_neg_half (by norm_num)
  ⟨hp, (updateElo_truncates_toward_zero refPlatform rowA rowB hp).2.2.1 rfl rfl powTable_neg_half⟩

/-- C2: for ratings w == l, expectedWinner is exactly 0.5 and updateElo returns
the winner with rating w + 25 and the loser with rating l - 25 (Go integer
arithmetic; the plain integers w + 25 and l - 25 whenever they fit `int`). -/
theorem updateElo_equal_ratings (P : Platform) (winner loser : anime)
    (hpow : P.mathPow (F64.fin 10) (F64.fin 0) = F64.fin 1) (heq : winner.Elo = loser.Elo) :
    expectedWinner P winner.Elo loser.Elo = F64.fin (1 / 2) ∧
    (updateElo P winner loser).1.Elo = wrap64 (winner.Elo + 25) ∧
    (updateElo P winner loser).2.Elo = wrap64 (loser.Elo - 25) ∧
    (-2 ^ 63 ≤ loser.Elo - 25 → winner.Elo + 25 < 2 ^ 63 →
      (updateElo P winner loser).1.Elo = winner.Elo + 25 ∧
      (updateElo P winner loser).2.Elo = loser.Elo - 25) := by
  have hE := (equal_floats P loser.Elo hpow).1
  obtain ⟨c1, c2⟩ := equal_changes P loser.Elo hpow
  have e1 : (updateElo P winner loser).1.Elo = wrap64 (winner.Elo + 25) := by
    show wrap64 (winner.Elo + eloChangeWinner P winner.Elo loser.Elo) = _
    rw [heq, c1]
  have e2 : (updateElo P winner loser).2.Elo = wrap64 (loser.Elo - 25) := by
    show wrap64 (loser.Elo + eloChangeLoser P winner.Elo loser.Elo) = _
    rw [heq, c2]; rfl
  refine ⟨by rw [heq]; exact hE, e1, e2, ?_⟩
  intro h1 h2
  rw [e1, e2]
  exact ⟨wrap64_of_range (by omega) h2, wrap64_of_range h1 (by omega)⟩

/-- The equal-ratings case on the reference platform: 1500 beats 1500. -/
theorem updateElo_equal_ratings_witness :
    refPlatform.mathPow (F64.fin 10) (F64.fin 0) = F64.fin 1 ∧ rowC.Elo = rowD.Elo ∧
    (updateElo refPlatform rowC rowD).1.Elo = 1525 ∧
    (updateElo refPlatform rowC rowD).2.Elo = 1475 :=
  ⟨powTable_zero, rfl,
    (updateElo_equal_ratings refPlatform rowC rowD powTable_zero rfl).2.2.2
      (by show (-2 : ℤ) ^ 63 ≤ 1500 - 25; norm_num) (by show (1500 : ℤ) + 25 < 2 ^ 63; norm_num)⟩

/-- C6 (as stated, refuted): a winner rated 2^63 - 1 and a loser rated
-2^63 + 199 have w > l, but `loser.Elo-winner.Elo` wraps around to 200, and the
winner gains 37 points, more than the 25 gained over an equally rated loser. -/
theorem updateElo_gain_wraps :
    (-9223372036854775609 : ℤ) < 9223372036854775807 ∧
    eloChangeWinner refPlatform 9223372036854775807 (-9223372036854775609) = 37 ∧
    eloChangeWinner refPlatform 9223372036854775807 9223372036854775807 = 25 ∧
    ¬ (eloChangeWinner refPlatform 9223372036854775807 (-9223372036854775609)
        < eloChangeWinner refPlatform 9223372036854775807 9223372036854775807) := by
  have hy : powArg 9223372036854775807 (-9223372036854775609) = F64.fin (1 / 2) :=
    powArg_of_200 (by unfold wrap64; norm_num)
  have c1 := (changes_of_half refPlatform _ _ hy powTable_half).1
  have c2 := (equal_changes refPlatform 9223372036854775807 powTable_zero).1
  refine ⟨by norm_num, c1, c2, ?_⟩
  rw [c1, c2]; norm_num

/-- C6 (amended): for ratings w > l whose difference fits `int` (w - l <= 2^63,
so that `loser.Elo-winner.Elo` does not wrap around), the gain updateElo gives a
winner rated w over a loser rated l is strictly smaller than the gain over an
equally rated loser, which is 25 points. -/
theorem updateElo_gain_below_even (P : Platform) (w l : ℤ) (hwl : l < w)
    (hd : -2 ^ 63 ≤ l - w)
    (hpow0 : P.mathPow (F64.fin 10) (F64.fin 0) = F64.fin 1)
    (hpow : ∀ y : ℚ, powArg w l = F64.fin y → y ≤ -1 / 512 →
      F64.between 0 (511 / 512) (P.mathPow (F64.fin 10) (F64.fin y))) :
    eloChangeWinner P w l < eloChangeWinner P w w ∧ eloChangeWinner P w w = 25 := by
  obtain ⟨y, hy, hy1⟩ := powArg_of_lt hwl hd
  have hb := hpow y hy hy1
  have h25 := (equal_changes P w hpow0).1
  refine ⟨?_, h25⟩
  rw [h25]
  cases hpw : P.mathPow (F64.fin 10) (F64.fin y) with
  | nan => rw [hpw] at hb; exact absurd hb (by simp [F64.between])
  | inf s => rw [hpw] at hb; exact absurd hb (by simp [F64.between])
  | fin q =>
    rw [hpw] at hb
    have hq : 0 ≤ q ∧ q ≤ 511 / 512 := hb
    have hp : P.mathPow (F64.fin 10) (powArg w l) = F64.fin q := by rw [hy]; exact hpw
    obtain ⟨e, hE, he1, he2⟩ := expected_of_pow P w l (a := 0) (b := 511 / 512)
      (c := 2049 / 4096) (d := 1) hp le_rfl hq.1 hq.2 (by norm_num)
      (rep_div_pow 1 0 _ (by norm_num) (by norm_num) (by norm_num))
      (rep_div_pow 1023 9 _ (by norm_num) (by norm_num) (by norm_num))
      (rep_div_pow 2049 12 _ (by norm_num) (by norm_num) (by norm_num))
      rep_one (by norm_num) (by norm_num) (by norm_num) le_rfl
    obtain ⟨g, hg1, _, hg3, hg4⟩ := delta_of_expected P w l (c := 2049 / 4096) (d := 1) hE
      (by norm_num) he1 he2 le_rfl
      (rep_div_pow 0 0 _ (by norm_num) (by norm_num) (by norm_num))
      (rep_div_pow 2047 12 _ (by norm_num) (by norm_num) (by norm_num))
      (rep_div_pow 0 0 _ (by norm_num) (by norm_num) (by norm_num))
      (rep_div_pow 51175 11 _ (by norm_num) (by norm_num) (by norm_num))
    have h0 : 0 ≤ g := by norm_num at hg3; exact hg3
    have hlt : g < 25 := by norm_num at hg4; linarith
    have ht := (toInt_fin_of_small P h0 (by linarith)).1
    unfold eloChangeWinner
    rw [hg1, ht]
    exact Int.floor_lt.mpr (by exact_mod_cast hlt)

/-- The favourite's gain on the reference platform: 1600 beats 1400 for fewer
than 25 points. -/
theorem updateElo_gain_below_even_witness :
    (1400 : ℤ) < 1600 ∧ eloChangeWinner refPlatform 1600 1400 < 25 :=
  have h := updateElo_gain_below_even refPlatform 1600 1400 (by norm_num) (by norm_num)
    powTable_zero (fun y hy _ => by
      rw [powArg_1600_1400] at hy
      injection hy with hy
      rw [← hy]
      exact between_mono powTable_neg_half (by norm_num) (by norm_num))
  ⟨by norm_num, h.2 ▸ h.1⟩

/-- C7 (as stated, refuted): for 1600 against 1400 the loser comes back with
1388, while the loser rating plus the mathematical floor of
K * (0 - expectedLoser) is 1387; and a loser rated -2^63, beaten by an equally
rated winner, comes back with 2^63 - 25: the change of -25 wraps around and the
rating does not decrease. -/
theorem updateElo_loser_not_floor :
    (updateElo refPlatform rowA rowB).2.Elo = 1388 ∧
    rowB.Elo + ⌊F64.toRat (F64.mul (F64.ofInt 50)
      (F64.sub (F64.fin 0) (expectedLoser refPlatform rowA.Elo rowB.Elo)))⌋ = 1387 ∧
    (updateElo refPlatform rowA rowB).2.Elo ≠
      rowB.Elo + ⌊F64.toRat (F64.mul (F64.ofInt 50)
        (F64.sub (F64.fin 0) (expectedLoser refPlatform rowA.Elo rowB.Elo)))⌋ ∧
    (updateElo refPlatform rowLow rowLow2).2.Elo = 9223372036854775783 ∧
    ¬ ((updateElo refPlatform rowLow rowLow2).2.Elo ≤ rowLow2.Elo) := by
  obtain ⟨_, c2, c3⟩ := changes_1600_1400 refPlatform powTable_neg_half
  have e1 : (updateElo refPlatform rowA rowB).2.Elo = 1388 := by
    show wrap64 (1400 + eloChangeLoser refPlatform 1600 1400) = 1388
    rw [c2]; exact wrap64_of_range (by norm_num) (by norm_num)
  have e2 : rowB.Elo + ⌊F64.toRat (F64.mul (F64.ofInt 50)
      (F64.sub (F64.fin 0) (expectedLoser refPlatform rowA.Elo rowB.Elo)))⌋ = 1387 := by
    show (1400 : ℤ) + ⌊F64.toRat (loserDelta refPlatform 1600 1400)⌋ = 1387
    rw [c3]; norm_num
  have e3 : (updateElo refPlatform rowLow rowLow2).2.Elo = 9223372036854775783 := by
    show wrap64 (-9223372036854775808
      + eloChangeLoser refPlatform (-9223372036854775808) (-9223372036854775808)) = _
    rw [(equal_changes refPlatform (-9223372036854775808) powTable_zero).2]
    unfold wrap64; norm_num
  refine ⟨e1, e2, ?_, e3, ?_⟩
  · rw [e1, e2]; norm_num
  · rw [e3]
    show ¬ ((9223372036854775783 : ℤ) ≤ -9223372036854775808)
    norm_num

/-- C7 (amended): for every winner rating w and loser rating l, the loser
returned by updateElo has rating l plus K * (0 - expectedLoser) with its
fraction discarded toward zero (the ceiling of this non-positive float), K = 50
and expectedLoser = 1 - expectedWinner, added with Go's wrapping int addition;
the change is <= 0 (and >= -50), so for l an `int` the loser's rating decreases
or stays flat exactly when l plus the change is not below -2^63, in particular
whenever l >= -2^63 + 50. -/
theorem updateElo_loser_truncated (P : Platform) (winner loser : anime)
    (hp : F64.nonneg (P.mathPow (F64.fin 10) (powArg winner.Elo loser.Elo))) :
    expectedLoser P winner.Elo loser.Elo
      = F64.sub (F64.fin 1) (expectedWinner P winner.Elo loser.Elo) ∧
    ∃ x : ℚ,
      F64.mul (F64.fin 50) (F64.sub (F64.fin 0) (expectedLoser P winner.Elo loser.Elo))
        = F64.fin x ∧
      x ≤ 0 ∧ ⌈x⌉ ≤ 0 ∧ -50 ≤ ⌈x⌉ ∧
      (updateElo P winner loser).2.Elo = wrap64 (loser.Elo + ⌈x⌉) ∧
      (-2 ^ 63 ≤ loser.Elo - 50 → loser.Elo < 2 ^ 63 →
        (updateElo P winner loser).2.Elo = loser.Elo + ⌈x⌉ ∧
        (updateElo P winner loser).2.Elo ≤ loser.Elo) ∧
      (-2 ^ 63 ≤ loser.Elo → loser.Elo < 2 ^ 63 →
        ((updateElo P winner loser).2.Elo ≤ loser.Elo ↔ -2 ^ 63 ≤ loser.Elo + ⌈x⌉) ∧
        (-2 ^ 63 ≤ loser.Elo + ⌈x⌉ →
          (updateElo P winner loser).2.Elo = loser.Elo + ⌈x⌉)) := by
  refine ⟨rfl, ?_⟩
  obtain ⟨g, _, hg2, h0, h50, _, hl⟩ := change_spec P winner.Elo loser.Elo hp
  have hb := floor_bounds (n := 50) h0 (by simpa using h50)
  have hc : ⌈-g⌉ = -⌊g⌋ := Int.ceil_neg
  have e : (updateElo P winner loser).2.Elo = wrap64 (loser.Elo + ⌈-g⌉) := by
    show wrap64 (loser.Elo + eloChangeLoser P winner.Elo loser.Elo) = _
    rw [hl, hc]
  refine ⟨-g, ?_, by linarith, by omega, by omega, e, ?_, ?_⟩
  · rw [← ofInt_fifty]; exact hg2
  · intro h1 h2
    have : wrap64 (loser.Elo + ⌈-g⌉) = loser.Elo + ⌈-g⌉ :=
      wrap64_of_range (by omega) (by omega)
    rw [e, this]
    exact ⟨rfl, by omega⟩
  · intro h1 h2
    rw [e]
    constructor
    · unfold wrap64; omega
    · intro h3
      exact wrap64_of_range h3 (by omega)

/-- The loser's change on the reference platform, 1600 beats 1400: the float
lies strictly between -13 and -12, its ceiling -12 is added and its floor -13
is not, and the loser comes back with 1388. -/
theorem updateElo_loser_truncated_witness :
    F64.nonneg (refPlatform.mathPow (F64.fin 10) (powArg rowA.Elo rowB.Elo)) ∧
    ∃ x : ℚ,
      F64.mul (F64.fin 50) (F64.sub (F64.fin 0) (expectedLoser refPlatform rowA.Elo rowB.Elo))
        = F64.fin x ∧
      -13 < x ∧ x < -12 ∧ ⌈x⌉ = -12 ∧ ⌊x⌋ = -13 ∧
      (updateElo refPlatform rowA rowB).2.Elo = wrap64 (rowB.Elo + ⌈x⌉) ∧
      (updateElo refPlatform rowA rowB).2.Elo = 1388 ∧
      (updateElo refPlatform rowA rowB).2.Elo ≤ rowB.Elo := by
  have hp : F64.nonneg (refPlatform.mathPow (F64.fin 10) (powArg rowA.Elo rowB.Elo)) := by
    show F64.nonneg (refPlatform.mathPow (F64.fin 10) (powArg 1600 1400))
    rw [powArg_1600_1400]
    exact nonneg_of_between powTable_neg_half (by norm_num)
  refine ⟨hp, ?_⟩
  obtain ⟨_, x, hx, _, _, _, hElo, hrange, _⟩ := updateElo_loser_truncated refPlatform rowA rowB hp
  obtain ⟨g, _, hg2, hg3, hg4⟩ := floats_1600_1400 refPlatform powTable_neg_half
  have hxg : x = -g := by
    have h1 : F64.fin x = F64.fin (-g) := by
      rw [← hx, ← ofInt_fifty]; exact hg2
    injection h1
  have hceil : ⌈x⌉ = -12 := by
    rw [hxg, Int.ceil_eq_iff]; constructor <;> norm_num <;> linarith
  have hfloor : ⌊x⌋ = -13 := by
    rw [hxg, Int.floor_eq_iff]; constructor <;> norm_num <;> linarith
  have hr := hrange (by show (-2 : ℤ) ^ 63 ≤ 1400 - 50; norm_num)
    (by show (1400 : ℤ) < 2 ^ 63; norm_num)
  refine ⟨x, hx, by linarith, by linarith, hceil, hfloor, hElo, ?_, hr.2⟩
  rw [hr.1, hceil]; rfl

/-- C10: updateElo is zero-sum: one integer gain g with 0 <= g <= 50 = K is
added to the winner and taken from the loser, so winnerNew.rating +
loserNew.rating = w + l (in Go integer arithmetic, and as plain integers
whenever w + 50 and l - 50 fit `int`). -/
theorem updateElo_zero_sum (P : Platform) (winner loser : anime)
    (hp : F64.nonneg (P.mathPow (F64.fin 10) (powArg winner.Elo loser.Elo))) :
    ∃ g : ℤ, 0 ≤ g ∧ g ≤ 50 ∧
      eloChangeWinner P winner.Elo loser.Elo = g ∧
      eloChangeLoser P winner.Elo loser.Elo = -g ∧
      (updateElo P winner loser).1.Elo = wrap64 (winner.Elo + g) ∧
      (updateElo P winner loser).2.Elo = wrap64 (loser.Elo - g) ∧
      wrap64 ((updateElo P winner loser).1.Elo + (updateElo P winner loser).2.Elo)
        = wrap64 (winner.Elo + loser.Elo) ∧
      (-2 ^ 63 ≤ winner.Elo → winner.Elo + 50 < 2 ^ 63 →
        -2 ^ 63 ≤ loser.Elo - 50 → loser.Elo < 2 ^ 63 →
        (updateElo P winner loser).1.Elo - winner.Elo = g ∧
        loser.Elo - (updateElo P winner loser).2.Elo = g ∧
        (updateElo P winner loser).1.Elo + (updateElo P winner loser).2.Elo
          = winner.Elo + loser.Elo) := by
  obtain ⟨g, _, _, h0, h50, hw, hl⟩ := change_spec P winner.Elo loser.Elo hp
  have hb := floor_bounds (n := 50) h0 (by simpa using h50)
  have e1 : (updateElo P winner loser).1.Elo = wrap64 (winner.Elo + ⌊g⌋) := by
    show wrap64 (winner.Elo + eloChangeWinner P winner.Elo loser.Elo) = _
    rw [hw]
  have e2 : (updateElo P winner loser).2.Elo = wrap64 (loser.Elo - ⌊g⌋) := by
    show wrap64 (loser.Elo + eloChangeLoser P winner.Elo loser.Elo) = _
    rw [hl]; rfl
  refine ⟨⌊g⌋, hb.1, hb.2, hw, hl, e1, e2, ?_, ?_⟩
  · rw [e1, e2, wrap64_add_wrap64]; congr 1; ring
  · intro h1 h2 h3 h4
    have w1 : wrap64 (winner.Elo + ⌊g⌋) = winner.Elo + ⌊g⌋ :=
      wrap64_of_range (by omega) (by omega)
    have w2 : wrap64 (loser.Elo - ⌊g⌋) = loser.Elo - ⌊g⌋ :=
      wrap64_of_range (by omega) (by omega)
    rw [e1, e2, w1, w2]
    refine ⟨by ring, by ring, by ring⟩

/-- The zero-sum transfer on the reference platform: 1600 beats 1400. -/
theorem updateElo_zero_sum_witness :
    F64.nonneg (refPlatform.mathPow (F64.fin 10) (powArg rowA.Elo rowB.Elo)) ∧
    ∃ g : ℤ, 0 ≤ g ∧ g ≤ 50 ∧
      (updateElo refPlatform rowA rowB).1.Elo = wrap64 (rowA.Elo + g) ∧
      (updateElo refPlatform rowA rowB).2.Elo = wrap64 (rowB.Elo - g) :=
  have hp : F64.nonneg (refPlatform.mathPow (F64.fin 10) (powArg rowA.Elo rowB.Elo)) := by
    show F64.nonneg (refPlatform.mathPow (F64.fin 10) (powArg 1600 1400))
    rw [powArg_1600_1400]
    exact nonneg_of_between powTable_neg_half (by norm_num)
  ⟨hp, (updateElo_zero_sum refPlatform rowA rowB hp).imp
    fun _ h => ⟨h.1, h.2.1, h.2.2.2.2.1, h.2.2.2.2.2.1⟩⟩

theorem orderKeyLE_fst {x y : ℤ × ℤ × anime} (h : orderKeyLE x y) : x.1 ≤ y.1 := by
  unfold orderKeyLE at h; omega

theorem keyedRows_rows (random : ℕ → ℤ) (db : Store) :
    (keyedRows random db).map (fun k => k.2.2) = completedRows db := by
  unfold keyedRows
  rw [List.map_map]
  exact List.enum_map_snd _

theorem keyedRows_key (random : ℕ → ℤ) (db : Store) :
    ∀ k ∈ keyedRows random db, k.1 = k.2.2.Fights := by
  intro k hk
  unfold keyedRows at hk
  obtain ⟨ia, _, rfl⟩ := List.mem_map.mp hk
  rfl

theorem queryTwo_eq (random : ℕ → ℤ) (db : Store) :
    queryTwo random db
      = (((keyedRows random db).insertionSort orderKeyLE).take 2).map fun k => k.2.2 := rfl

theorem queryTwo_length (random : ℕ → ℤ) (db : Store) :
    (queryTwo random db).length = min 2 (completedRows db).length := by
  rw [queryTwo_eq, List.length_map, List.length_take, List.length_insertionSort,
    ← keyedRows_rows random db, List.length_map]

theorem completedRows_length (db : Store) :
    (completedRows db).length
      = db.rows.countP (fun a => decide (a.Status = "Completed")) := by
  unfold completedRows
  rw [List.countP_eq_length_filter]

theorem completedRows_mem {db : Store} {r : anime} (h : r ∈ completedRows db) :
    r.Status = "Completed" ∧ r ∈ db.rows := by
  unfold completedRows at h
  have := List.mem_filter.mp h
  exact ⟨by simpa using this.2, this.1⟩

/-- Shape of a successful selection: the two rows head the candidates sorted by
comparison count. -/
theorem getTwo_of_pair {f : ℕ → ℤ} {s : Store} {a b : anime}
    (h : getTwoRandomAnimes f (some s) = Selection.pair a b) :
    ∃ rest, (a :: b :: rest).Perm (completedRows s) ∧ a.Fights ≤ b.Fights ∧
      ∀ r ∈ rest, b.Fights ≤ r.Fights := by
  have hq : queryTwo f s = [a, b] := by
    unfold getTwoRandomAnimes at h
    simp only at h
    split at h
    · next x y hxy =>
      injection h with h1 h2
      rw [hxy, h1, h2]
    · exact absurd h (by simp)
  have hperm := List.perm_insertionSort orderKeyLE (keyedRows f s)
  have hsorted := List.sorted_insertionSort orderKeyLE (keyedRows f s)
  have hkey : ∀ k ∈ (keyedRows f s).insertionSort orderKeyLE, k.1 = k.2.2.Fights :=
    fun k hk => keyedRows_key f s k (hperm.subset hk)
  rw [queryTwo_eq] at hq
  have hrows : (((keyedRows f s).insertionSort orderKeyLE).map fun k => k.2.2).Perm
      (completedRows s) := by
    rw [← keyedRows_rows f s]; exact hperm.map _
  generalize (keyedRows f s).insertionSort orderKeyLE = S at hq hsorted hkey hrows
  match S, hq, hsorted, hkey, hrows with
  | [], hq, _, _, _ => exact absurd hq (by simp)
  | [k], hq, _, _, _ => exact absurd hq (by simp)
  | k1 :: k2 :: ks, hq, hsorted, hkey, hrows =>
    simp only [List.take_succ_cons, List.take_zero, List.map_cons, List.map_nil,
      List.cons.injEq, and_true] at hq
    obtain ⟨ha, hb⟩ := hq
    refine ⟨ks.map fun k => k.2.2, ?_, ?_, ?_⟩
    · rw [← ha, ← hb]; simpa using hrows
    · have h12 : orderKeyLE k1 k2 := List.rel_of_sorted_cons hsorted k2 (by simp)
      have := orderKeyLE_fst h12
      rw [hkey k1 (by simp), hkey k2 (by simp), ha, hb] at this
      exact this
    · intro r hr
      obtain ⟨k, hk, rfl⟩ := List.mem_map.mp hr
      have h2k : orderKeyLE k2 k := List.rel_of_sorted_cons hsorted.of_cons k hk
      have := orderKeyLE_fst h2k
      rw [hkey k2 (by simp), hkey k (by simp [hk]), hb] at this
      exact this

theorem getTwo_isPair {f : ℕ → ℤ} {s : Store} (h : 2 ≤ (completedRows s).length) :
    ∃ a b, getTwoRandomAnimes f (some s) = Selection.pair a b := by
  have hl := queryTwo_length f s
  rw [min_eq_left h] at hl
  unfold getTwoRandomAnimes
  simp only
  match hq : queryTwo f s, hl with
  | [a, b], _ => exact ⟨a, b, rfl⟩

theorem getTwo_failedTwo {f : ℕ → ℤ} {s : Store} (h : (completedRows s).length < 2) :
    getTwoRandomAnimes f (some s) = Selection.failedTwo := by
  have hl := queryTwo_length f s
  rw [min_eq_right (by omega)] at hl
  unfold getTwoRandomAnimes
  simp only
  match hq : queryTwo f s, hl with
  | [], _ => rfl
  | [a], _ => rfl
  | a :: b :: c, hl => simp at hl; omega

/-- C9: on a database whose table holds fewer than two rows of status
'Completed', getTwoRandomAnimes returns no pair and exits with "Failed to get
two animes"; with two or more such rows it returns a pair of them and does not
fail.  (A database file without the table is not a store: there the query
itself fails, with "Failed to execute query".) -/
theorem getTwoRandomAnimes_fails_iff (random : ℕ → ℤ) (db : Store) :
    (db.rows.countP (fun r => decide (r.Status = "Completed")) < 2 →
      getTwoRandomAnimes random (some db) = Selection.failedTwo) ∧
    (2 ≤ db.rows.countP (fun r => decide (r.Status = "Completed")) →
      ∃ a b, getTwoRandomAnimes random (some db) = Selection.pair a b ∧
        a.Status = "Completed" ∧ b.Status = "Completed" ∧ a ∈ db.rows ∧ b ∈ db.rows) ∧
    (getTwoRandomAnimes random (some db) = Selection.failedTwo ↔
      db.rows.countP (fun r => decide (r.Status = "Completed")) < 2) ∧
    getTwoRandomAnimes random (some db) ≠ Selection.failedQuery ∧
    getTwoRandomAnimes random none = Selection.failedQuery := by
  have hlen := completedRows_length db
  have hfail : db.rows.countP (fun r => decide (r.Status = "Completed")) < 2 →
      getTwoRandomAnimes random (some db) = Selection.failedTwo :=
    fun h => getTwo_failedTwo (by rw [hlen]; exact h)
  have hpair : 2 ≤ db.rows.countP (fun r => decide (r.Status = "Completed")) →
      ∃ a b, getTwoRandomAnimes random (some db) = Selection.pair a b ∧
        a.Status = "Completed" ∧ b.Status = "Completed" ∧ a ∈ db.rows ∧ b ∈ db.rows := by
    intro h
    obtain ⟨a, b, hab⟩ := getTwo_isPair (f := random) (s := db) (by rw [hlen]; exact h)
    obtain ⟨rest, hperm, _, _⟩ := getTwo_of_pair hab
    have ha := completedRows_mem (hperm.subset (List.mem_cons_self a _))
    have hb := completedRows_mem
      (hperm.subset (List.mem_cons_of_mem a (List.mem_cons_self b _)))
    exact ⟨a, b, hab, ha.1, hb.1, ha.2, hb.2⟩
  refine ⟨hfail, hpair, ⟨fun h => ?_, hfail⟩, ?_, rfl⟩
  · by_contra hc
    obtain ⟨a, b, hab, _⟩ := hpair (by omega)
    rw [h] at hab
    exact absurd hab (by simp)
  · rcases Nat.lt_or_ge (db.rows.countP (fun r => decide (r.Status = "Completed"))) 2
      with h | h
    · rw [hfail h]; simp
    · obtain ⟨a, b, hab, _⟩ := hpair h
      rw [hab]; simp

/-- Scenario of one eligible item only: of the three rows of the store a single
one is completed, and the selection fails with "Failed to get two animes". -/
theorem getTwoRandomAnimes_fails_iff_witness :
    loneStore.rows.countP (fun r => decide (r.Status = "Completed")) = 1 ∧
    getTwoRandomAnimes (fun i => i) (some loneStore) = Selection.failedTwo ∧
    ∃ a b, getTwoRandomAnimes (fun i => i) (some mixedStore) = Selection.pair a b ∧
      a.Status = "Completed" ∧ b.Status = "Completed" ∧
      a ∈ mixedStore.rows ∧ b ∈ mixedStore.rows :=
  ⟨by decide,
    (getTwoRandomAnimes_fails_iff (fun i => i) loneStore).1 (by decide),
    (getTwoRandomAnimes_fails_iff (fun i => i) mixedStore).2.1 (by decide)⟩

/-- C4: with at least two rows of status 'Completed', whatever values RANDOM()
takes, getTwoRandomAnimes returns a pair that is least-compared-first: the
first row's fights is <= the second's, and every other row of status
'Completed' has fights >= that of both returned rows. -/
theorem getTwoRandomAnimes_least_compared (random : ℕ → ℤ) (db : Store)
    (h : 2 ≤ (db.rows.filter fun r => decide (r.Status = "Completed")).length) :
    ∃ a b rest, getTwoRandomAnimes random (some db) = Selection.pair a b ∧
      (a :: b :: rest).Perm (db.rows.filter fun r => decide (r.Status = "Completed")) ∧
      a.Fights ≤ b.Fights ∧
      ∀ r ∈ rest, a.Fights ≤ r.Fights ∧ b.Fights ≤ r.Fights := by
  obtain ⟨a, b, hab⟩ := getTwo_isPair (f := random) (s := db) h
  obtain ⟨rest, hperm, hle, hrest⟩ := getTwo_of_pair hab
  exact ⟨a, b, rest, hab, hperm, hle, fun r hr => ⟨le_trans hle (hrest r hr), hrest r hr⟩⟩

/-- Least-compared-first on a store with the counts 3, 0 (not completed), 1, 5
and 2: whatever the random keys, the pair is the completed rows with counts 1
and 2, in this order. -/
theorem getTwoRandomAnimes_least_compared_witness :
    2 ≤ (mixedStore.rows.filter fun r => decide (r.Status = "Completed")).length ∧
    ∀ random : ℕ → ℤ,
      getTwoRandomAnimes random (some mixedStore) = Selection.pair rowG rowI := by
  refine ⟨by decide, fun random => ?_⟩
  obtain ⟨a, b, rest, hsel, hperm, hab, hrest⟩ :=
    getTwoRandomAnimes_least_compared random mixedStore (by decide)
  have hL : (mixedStore.rows.filter fun r => decide (r.Status = "Completed"))
      = [rowE, rowG, rowH, rowI] := by decide
  rw [hL] at hperm
  have hnd : (a :: b :: rest).Nodup := hperm.nodup_iff.mpr (by decide)
  have hne : a ≠ b := by
    intro hc
    rw [hc] at hnd
    exact (List.nodup_cons.mp hnd).1 (List.mem_cons_self b rest)
  have ha : a ∈ [rowE, rowG, rowH, rowI] := hperm.subset (List.mem_cons_self a _)
  have hb : b ∈ [rowE, rowG, rowH, rowI] :=
    hperm.subset (List.mem_cons_of_mem a (List.mem_cons_self b _))
  have hall : ∀ r ∈ [rowE, rowG, rowH, rowI], r = a ∨ r = b ∨ b.Fights ≤ r.Fights := by
    intro r hr
    have hr2 : r ∈ a :: b :: rest := hperm.symm.subset hr
    rcases List.mem_cons.mp hr2 with h1 | h1
    · exact Or.inl h1
    · rcases List.mem_cons.mp h1 with h2 | h2
      · exact Or.inr (Or.inl h2)
      · exact Or.inr (Or.inr (hrest r h2).2)
  have key : ∀ x ∈ [rowE, rowG, rowH, rowI], ∀ y ∈ [rowE, rowG, rowH, rowI],
      x ≠ y → x.Fights ≤ y.Fights →
      (∀ r ∈ [rowE, rowG, rowH, rowI], r = x ∨ r = y ∨ y.Fights ≤ r.Fights) →
      x = rowG ∧ y = rowI := by decide
  obtain ⟨e1, e2⟩ := key a ha b hb hne hab hall
  rw [hsel, e1, e2]

/-- C5: on a store whose anidb_id values are unique, a pair returned by
getTwoRandomAnimes has two different identities and both rows have status
'Completed'. -/
theorem getTwoRandomAnimes_distinct_eligible (random : ℕ → ℤ) (db : Store) (a b : anime)
    (hnd : (db.rows.map anime.AnidbID).Nodup)
    (h : getTwoRandomAnimes random (some db) = Selection.pair a b) :
    a.AnidbID ≠ b.AnidbID ∧ a.Status = "Completed" ∧ b.Status = "Completed" ∧
      a ∈ db.rows ∧ b ∈ db.rows := by
  obtain ⟨rest, hperm, _, _⟩ := getTwo_of_pair h
  have hsub : List.Sublist (completedRows db) db.rows := List.filter_sublist _
  have hnd2 : ((completedRows db).map anime.AnidbID).Nodup := hnd.sublist (hsub.map _)
  have hnd3 : ((a :: b :: rest).map anime.AnidbID).Nodup :=
    (hperm.map anime.AnidbID).nodup_iff.mpr hnd2
  have ha := completedRows_mem (hperm.subset (List.mem_cons_self a _))
  have hb := completedRows_mem
    (hperm.subset (List.mem_cons_of_mem a (List.mem_cons_self b _)))
  refine ⟨?_, ha.1, hb.1, ha.2, hb.2⟩
  simp only [List.map_cons, List.nodup_cons, List.mem_cons, not_or] at hnd3
  exact hnd3.1.1

/-- The pair selected from the store of mixed status under constant random
keys: the never-compared row that is not completed is passed over. -/
theorem getTwoRandomAnimes_distinct_eligible_witness :
    (mixedStore.rows.map anime.AnidbID).Nodup ∧
    getTwoRandomAnimes (fun _ => 0) (some mixedStore) = Selection.pair rowG rowI ∧
    rowG.AnidbID ≠ rowI.AnidbID ∧ rowG.Status = "Completed" ∧ rowI.Status = "Completed" :=
  have h := getTwoRandomAnimes_distinct_eligible (fun _ => 0) mixedStore rowG rowI
    (by decide) (by decide)
  ⟨by decide, by decide, h.1, h.2.1, h.2.2.1⟩

/-- C3: on a store with unique anidb_id, for a winner and a loser of distinct
identities both present, after updateEloInDB the winner's and the loser's
fights have each increased by exactly 1, their ratings are the ones updateElo
returns, and every other row is unchanged; A(1500, 0) beats B(1500, 0) leaves
A = (1525, 1) and B = (1475, 1). -/
theorem updateEloInDB_frame (P : Platform) (db : Store) (winner loser : anime)
    (hnd : (db.rows.map anime.AnidbID).Nodup)
    (hne : winner.AnidbID ≠ loser.AnidbID)
    (hw : ∃ r ∈ db.rows, r.AnidbID = winner.AnidbID)
    (hl : ∃ r ∈ db.rows, r.AnidbID = loser.AnidbID) :
    (updateEloInDB P winner loser db).rows.map anime.AnidbID = db.rows.map anime.AnidbID ∧
    (∃ rw, (∀ r ∈ db.rows, r.AnidbID = winner.AnidbID ↔ r = rw) ∧
      (∀ r ∈ (updateEloInDB P winner loser db).rows, r.AnidbID = winner.AnidbID ↔
        r = anime.mk rw.ID rw.AnidbID rw.Title rw.Status
          (updateElo P winner loser).1.Elo (rw.Fights + 1)) ∧
      anime.mk rw.ID rw.AnidbID rw.Title rw.Status
          (updateElo P winner loser).1.Elo (rw.Fights + 1)
        ∈ (updateEloInDB P winner loser db).rows) ∧
    (∃ rl, (∀ r ∈ db.rows, r.AnidbID = loser.AnidbID ↔ r = rl) ∧
      (∀ r ∈ (updateEloInDB P winner loser db).rows, r.AnidbID = loser.AnidbID ↔
        r = anime.mk rl.ID rl.AnidbID rl.Title rl.Status
          (updateElo P winner loser).2.Elo (rl.Fights + 1)) ∧
      anime.mk rl.ID rl.AnidbID rl.Title rl.Status
          (updateElo P winner loser).2.Elo (rl.Fights + 1)
        ∈ (updateEloInDB P winner loser db).rows) ∧
    (∀ (i : ℕ) (r : anime), db.rows[i]? = some r →
      (updateEloInDB P winner loser db).rows[i]?
        = some (decided (updateElo P winner loser).1 (updateElo P winner loser).2 r)) ∧
    (∀ (i : ℕ) (r : anime), db.rows[i]? = some r → r.AnidbID ≠ winner.AnidbID →
      r.AnidbID ≠ loser.AnidbID → (updateEloInDB P winner loser db).rows[i]? = some r) := by
  have hrows : (updateEloInDB P winner loser db).rows
      = db.rows.map (decided (updateElo P winner loser).1 (updateElo P winner loser).2) := by
    show execUpdate _ _ (execUpdate _ _ db.rows) = _
    unfold execUpdate
    rw [List.map_map]
    apply List.map_congr_left
    intro r _
    have i1 : (updateElo P winner loser).1.AnidbID = winner.AnidbID := rfl
    have i2 : (updateElo P winner loser).2.AnidbID = loser.AnidbID := rfl
    by_cases h1 : r.AnidbID = winner.AnidbID
    · have h2 : ¬ r.AnidbID = loser.AnidbID := fun h => hne (h1.symm.trans h)
      simp [decided, i1, i2, h1, hne]
    · have hne2 : ¬ loser.AnidbID = winner.AnidbID := fun h => hne h.symm
      by_cases h2 : r.AnidbID = loser.AnidbID <;> simp [decided, i1, i2, h1, h2, hne2]
  have hid : ∀ r, (decided (updateElo P winner loser).1 (updateElo P winner loser).2 r).AnidbID
      = r.AnidbID := by
    intro r; unfold decided; split_ifs <;> rfl
  have huniq : ∀ id, (∃ r ∈ db.rows, r.AnidbID = id) →
      ∃ r0, ∀ r ∈ db.rows, r.AnidbID = id ↔ r = r0 := by
    intro id ⟨r0, hr0, hid0⟩
    refine ⟨r0, fun r hr => ⟨fun h => ?_, fun h => h ▸ hid0⟩⟩
    exact List.inj_on_of_nodup_map hnd hr hr0 (h.trans hid0.symm)
  have hwin : ∀ r, r.AnidbID = winner.AnidbID →
      decided (updateElo P winner loser).1 (updateElo P winner loser).2 r
        = anime.mk r.ID r.AnidbID r.Title r.Status (updateElo P winner loser).1.Elo
            (r.Fights + 1) := by
    intro r h
    unfold decided
    rw [if_pos (by exact h)]
  have hlos : ∀ r, r.AnidbID = loser.AnidbID →
      decided (updateElo P winner loser).1 (updateElo P winner loser).2 r
        = anime.mk r.ID r.AnidbID r.Title r.Status (updateElo P winner loser).2.Elo
            (r.Fights + 1) := by
    intro r h
    unfold decided
    rw [if_neg (by show ¬ r.AnidbID = winner.AnidbID; exact fun h2 => hne (h2.symm.trans h)),
      if_pos (by exact h)]
  refine ⟨?_, ?_, ?_, ?_, ?_⟩
  · rw [hrows, List.map_map]
    exact List.map_congr_left fun r _ => hid r
  · obtain ⟨rw, hrw⟩ := huniq _ hw
    obtain ⟨r0, hr0, hr0id⟩ := hw
    have e0 : r0 = rw := (hrw r0 hr0).mp hr0id
    subst e0
    refine ⟨r0, hrw, ?_, ?_⟩
    · intro r hr
      rw [hrows] at hr
      obtain ⟨r1, hr1, rfl⟩ := List.mem_map.mp hr
      rw [hid]
      constructor
      · intro h
        have := (hrw r1 hr1).mp h
        subst this
        exact hwin _ h
      · intro h
        have h2 := congrArg anime.AnidbID h
        rw [hid] at h2
        exact h2.trans hr0id
    · rw [hrows, ← hwin r0 hr0id]
      exact List.mem_map_of_mem _ hr0
  · obtain ⟨rl, hrl⟩ := huniq _ hl
    obtain ⟨r0, hr0, hr0id⟩ := hl
    have e0 : r0 = rl := (hrl r0 hr0).mp hr0id
    subst e0
    refine ⟨r0, hrl, ?_, ?_⟩
    · intro r hr
      rw [hrows] at hr
      obtain ⟨r1, hr1, rfl⟩ := List.mem_map.mp hr
      rw [hid]
      constructor
      · intro h
        have := (hrl r1 hr1).mp h
        subst this
        exact hlos _ h
      · intro h
        have h2 := congrArg anime.AnidbID h
        rw [hid] at h2
        exact h2.trans hr0id
    · rw [hrows, ← hlos r0 hr0id]
      exact List.mem_map_of_mem _ hr0
  · intro i r hi
    rw [hrows, List.getElem?_map, hi]; rfl
  · intro i r hi h1 h2
    rw [hrows, List.getElem?_map, hi]
    show some (decided _ _ r) = some r
    unfold decided
    rw [if_neg (by exact h1), if_neg (by exact h2)]

theorem updateElo_1500 :
    (updateElo refPlatform rowC rowD).1.Elo = 1525 ∧
    (updateElo refPlatform rowC rowD).2.Elo = 1475 := by
  obtain ⟨c1, c2⟩ := equal_changes refPlatform 1500 powTable_zero
  constructor
  · show wrap64 (1500 + eloChangeWinner refPlatform 1500 1500) = 1525
    rw [c1]; exact wrap64_of_range (by norm_num) (by norm_num)
  · show wrap64 (1500 + eloChangeLoser refPlatform 1500 1500) = 1475
    rw [c2]; exact wrap64_of_range (by norm_num) (by norm_num)

/-- Scenario A(1500, 0) beats B(1500, 0): A = (1525, 1) and B = (1475, 1). -/
theorem updateEloInDB_frame_witness :
    (sampleTwo.rows.map anime.AnidbID).Nodup ∧ rowC.AnidbID ≠ rowD.AnidbID ∧
    (updateEloInDB refPlatform rowC rowD sampleTwo).rows[0]?
      = some (anime.mk 3 103 "C" "Completed" 1525 1) ∧
    (updateEloInDB refPlatform rowC rowD sampleTwo).rows[1]?
      = some (anime.mk 4 104 "D" "Completed" 1475 1) := by
  have h := updateEloInDB_frame refPlatform sampleTwo rowC rowD (by decide) (by decide)
    ⟨rowC, by decide, rfl⟩ ⟨rowD, by decide, rfl⟩
  have e1 : decided (updateElo refPlatform rowC rowD).1 (updateElo refPlatform rowC rowD).2 rowC
      = anime.mk 3 103 "C" "Completed" 1525 1 := by
    unfold decided
    rw [if_pos (show rowC.AnidbID = (updateElo refPlatform rowC rowD).1.AnidbID from rfl),
      updateElo_1500.1]; rfl
  have e2 : decided (updateElo refPlatform rowC rowD).1 (updateElo refPlatform rowC rowD).2 rowD
      = anime.mk 4 104 "D" "Completed" 1475 1 := by
    unfold decided
    rw [if_neg (show ¬ rowD.AnidbID = (updateElo refPlatform rowC rowD).1.AnidbID by decide),
      if_pos (show rowD.AnidbID = (updateElo refPlatform rowC rowD).2.AnidbID from rfl),
      updateElo_1500.2]; rfl
  refine ⟨by decide, by decide, ?_, ?_⟩
  · rw [h.2.2.2.1 0 rowC rfl, e1]
  · rw [h.2.2.2.1 1 rowD rfl, e2]

theorem execInsert_ok {db db1 : Store} {a : Anime} (h : execInsert db a = Except.ok db1) :
    (∀ r ∈ db.rows, r.AnidbID ≠ a.AnidbID) ∧
    ∃ row, db1.rows = db.rows ++ [row] ∧ row.AnidbID = a.AnidbID ∧ row.Elo = 1500 ∧
      row.Fights = 0 := by
  unfold execInsert at h
  split_ifs at h with hc
  injection h with h
  subst h
  refine ⟨fun r hr hid => hc ?_, _, rfl, rfl, rfl, rfl⟩
  exact List.any_eq_true.mpr ⟨r, hr, by simpa using hid⟩

theorem insertTitles_keeps_rows (series : List Anime) :
    ∀ db : Store, db.rows <+: (insertTitlesIntoDB series db).1.rows := by
  induction series with
  | nil => intro db; exact ⟨[], List.append_nil _⟩
  | cons a rest ih =>
    intro db
    unfold insertTitlesIntoDB
    cases h : execInsert db a with
    | error e => exact ⟨[], List.append_nil _⟩
    | ok db1 =>
      obtain ⟨_, row, hrows, _⟩ := execInsert_ok h
      obtain ⟨t, ht⟩ := ih db1
      exact ⟨[row] ++ t, by rw [← List.append_assoc, ← hrows, ht]⟩

theorem insertTitles_error (series : List Anime) :
    ∀ (db : Store) (a : Anime), a ∈ series → (∃ r ∈ db.rows, r.AnidbID = a.AnidbID) →
      (insertTitlesIntoDB series db).2 = some DBError.uniqueConstraint := by
  induction series with
  | nil => intro db a ha; exact absurd ha (by simp)
  | cons b rest ih =>
    intro db a ha hdup
    unfold insertTitlesIntoDB
    cases h : execInsert db b with
    | error e => cases e; rfl
    | ok db1 =>
      obtain ⟨hfresh, row, hrows, _⟩ := execInsert_ok h
      obtain ⟨r, hr, hid⟩ := hdup
      rcases List.mem_cons.mp ha with rfl | hrest
      · exact absurd hid (hfresh r hr)
      · exact ih db1 a hrest ⟨r, by rw [hrows]; exact List.mem_append_left _ hr, hid⟩

theorem insertTitles_no_new (series : List Anime) :
    ∀ (db : Store) (id : ℤ), (∃ r ∈ db.rows, r.AnidbID = id) →
      ∀ r ∈ (insertTitlesIntoDB series db).1.rows, r.AnidbID = id → r ∈ db.rows := by
  induction series with
  | nil => intro db id _ r hr _; exact hr
  | cons b rest ih =>
    intro db id hdup r hr hid
    unfold insertTitlesIntoDB at hr
    cases h : execInsert db b with
    | error e => rw [h] at hr; exact hr
    | ok db1 =>
      rw [h] at hr
      obtain ⟨hfresh, row, hrows, hrowid, _⟩ := execInsert_ok h
      obtain ⟨r0, hr0, hid0⟩ := hdup
      have hmem := ih db1 id ⟨r0, by rw [hrows]; exact List.mem_append_left _ hr0, hid0⟩ r hr hid
      rw [hrows] at hmem
      rcases List.mem_append.mp hmem with h1 | h1
      · exact h1
      · have : r = row := by simpa using h1
        subst this
        exact absurd (hid0.trans (hid.symm.trans hrowid)) (hfresh r0 hr0)

/-- C8: an import (insertTitlesIntoDB) containing a record whose anidb_id is
already in the store returns an error (the UNIQUE constraint), and every row
the store had stays as it was, rating and comparison count included; no second
row for that identity is created. -/
theorem insertTitlesIntoDB_duplicate (db : Store) (series : List Anime) (a : Anime)
    (ha : a ∈ series) (hdup : ∃ r ∈ db.rows, r.AnidbID = a.AnidbID) :
    (insertTitlesIntoDB series db).2 = some DBError.uniqueConstraint ∧
    db.rows <+: (insertTitlesIntoDB series db).1.rows ∧
    (∀ (i : ℕ) (r : anime), db.rows[i]? = some r →
      (insertTitlesIntoDB series db).1.rows[i]? = some r) ∧
    (∀ r ∈ (insertTitlesIntoDB series db).1.rows, r.AnidbID = a.AnidbID → r ∈ db.rows) := by
  refine ⟨insertTitles_error series db a ha hdup, insertTitles_keeps_rows series db, ?_,
    insertTitles_no_new series db a.AnidbID hdup⟩
  intro i r hi
  obtain ⟨t, ht⟩ := insertTitles_keeps_rows series db
  rw [← ht]
  have hlt : i < db.rows.length := by
    by_contra hc
    rw [List.getElem?_eq_none (by omega)] at hi
    exact absurd hi (by simp)
  rw [List.getElem?_append_left hlt]; exact hi

/-- Import of three records into the sample store, the second of an identity
already stored. -/
theorem insertTitlesIntoDB_duplicate_witness :
    Anime.mk "B" "Completed" 102 ∈
      [Anime.mk "X" "Completed" 7, Anime.mk "B" "Completed" 102, Anime.mk "Y" "Watching" 8] ∧
    (insertTitlesIntoDB
      [Anime.mk "X" "Completed" 7, Anime.mk "B" "Completed" 102, Anime.mk "Y" "Watching" 8]
      sampleStore).2 = some DBError.uniqueConstraint ∧
    sampleStore.rows <+: (insertTitlesIntoDB
      [Anime.mk "X" "Completed" 7, Anime.mk "B" "Completed" 102, Anime.mk "Y" "Watching" 8]
      sampleStore).1.rows :=
  have h := insertTitlesIntoDB_duplicate sampleStore
    [Anime.mk "X" "Completed" 7, Anime.mk "B" "Completed" 102, Anime.mk "Y" "Watching" 8]
    (Anime.mk "B" "Completed" 102) (by decide) ⟨rowB, by decide, rfl⟩
  ⟨by decide, h.1, h.2.1⟩

end Animelo
